import Mathlib

/-!
# githubapp: token source, installation resolver and cache adapter

A shallow embedding of `client.go`, `app.go` and `cache/cache.go`.

* Go's `time.Duration` is a signed count of nanoseconds; `time.Time` is modelled as a
  signed count of nanoseconds since the Unix epoch, so `Time.Add` is addition and
  `Time.Unix` is the floor of a division by `10^9`.
* Libraries the package calls but does not contain (PEM parsing, JWS encoding, the GitHub
  API client, the installation transport, the expiring store) are parameters: `JwtLib`,
  `GithubLib`, `Cache`, `Store`.
* A Go panic is the `panicked` constructor of `Outcome`.
* A `*Installation` is an address in a heap of allocated objects, so that two pointers are
  identical exactly when the addresses are equal; the calls made on the cache and on the
  libraries are recorded in a trace.
-/

namespace githubapp

/-! ## Time -/

/-- Go `time.Duration`: a signed number of nanoseconds. -/
abbrev Duration := Int

/-- Go `time.Second`, in nanoseconds. -/
def Second : Duration := 1000000000

/-- Go `time.Minute`, in nanoseconds. -/
def Minute : Duration := 60 * Second

/-- Go `time.Time`, as nanoseconds since the Unix epoch. -/
structure Time where
  ns : Int
deriving DecidableEq, Repr

/-- Go `Time.Add`. -/
def Time.Add (t : Time) (d : Duration) : Time := ⟨t.ns + d⟩

/-- Go `Time.Unix`: whole seconds since the epoch (rounded towards minus infinity). -/
def Time.Unix (t : Time) : Int := t.ns / 1000000000

/-- Go `Time.Before`. -/
def Time.Before (t u : Time) : Bool := decide (t.ns < u.ns)

/-- Go `Time.After`. -/
def Time.After (t u : Time) : Bool := decide (u.ns < t.ns)

/-! ## Errors and outcomes -/

/-- Go `error` values: a leaf error, or `errors.Wrap(cause, msg)`. -/
inductive GoError where
  | New (msg : String)
  | withMessage (cause : GoError) (msg : String)
deriving DecidableEq, Repr

/-- The `Error()` string: `errors.Wrap` renders as `msg: cause`. -/
def GoError.Error : GoError → String
  | .New msg => msg
  | .withMessage cause msg => msg ++ ": " ++ cause.Error

/-- The `errors.Cause` of an error: the innermost wrapped error. -/
def GoError.Cause : GoError → GoError
  | .New msg => .New msg
  | .withMessage cause _ => cause.Cause

/-- The `errors.Wrap(err, message)` of a non-nil error. -/
def Wrap (err : GoError) (message : String) : GoError := .withMessage err message

/-- A Go call either returns a value or panics with a value. -/
inductive Outcome (α : Type) where
  | returned (a : α)
  | panicked (err : GoError)
deriving DecidableEq, Repr

/-! ## client.go -/

/-- maxExpires is the maximum expiration time of github app token. -/
def maxExpires : Duration := 10 * Minute

/-- Go `jws.Header` (the fields the package sets). -/
structure Header where
  Algorithm : String
  Typ : String
deriving DecidableEq, Repr

/-- Go `jws.ClaimSet` (the fields the package sets; `Exp` is in epoch seconds). -/
structure ClaimSet where
  Iss : String
  Exp : Int
deriving DecidableEq, Repr

/-- The header every token is signed with. -/
def defaultHeader : Header := { Algorithm := "RS256", Typ := "JWT" }

/-- Go `rsa.PrivateKey`, as its numbers. -/
structure PrivateKey where
  N : Nat
  E : Nat
  D : Nat
deriving DecidableEq, Repr

/-- Go `oauth2.Token` (the fields the package sets). -/
structure Token where
  AccessToken : String
  TokenType : String
  Expiry : Time
deriving DecidableEq, Repr

/-- Config of Application authentication. -/
structure Config where
  AppID : String
  PrivateKey : List UInt8
  Expire : Duration
deriving DecidableEq, Repr

/-- The token source of the application: `appSource` of client.go. -/
structure appSource where
  appID : String
  expire : Duration
  pk : PrivateKey
deriving DecidableEq, Repr

/-- The libraries client.go calls: `jwt.ParseRSAPrivateKeyFromPEM` and `jws.Encode`. -/
structure JwtLib where
  ParseRSAPrivateKeyFromPEM : List UInt8 → Except GoError PrivateKey
  Encode : Header → ClaimSet → PrivateKey → Except GoError String

/-- The lifetime `appSource.Token` uses: the first three lines of its body. -/
def adjustExpire (expire : Duration) : Duration :=
  if expire ≤ 0 ∨ expire > maxExpires then maxExpires else expire

/-- The method `appSource.Token`, at the instant `now` that `time.Now()` returns. -/
def appSource.Token (lib : JwtLib) (js : appSource) (now : Time) : Except GoError Token :=
  let expire := adjustExpire js.expire
  let exp := now.Add expire
  let claimSet : ClaimSet := { Iss := js.appID, Exp := exp.Unix }
  let h := defaultHeader
  match lib.Encode h claimSet js.pk with
  | .error err => .error err
  | .ok payload => .ok { TokenType := "bearer", AccessToken := payload, Expiry := exp }

/-- The reuse wrapper that `oauth2.ReuseTokenSource` builds, a type of the library
`golang.org/x/oauth2`, outside this package. It holds the token issued last (`t`, none at
first) and the source that issues new ones (`new`). -/
structure reuseTokenSource where
  t : Option Token
  new : appSource
deriving DecidableEq, Repr

/-- The library's `oauth2.ReuseTokenSource(t, src)`. -/
def ReuseTokenSource (t : Option Token) (src : appSource) : reuseTokenSource :=
  { t := t, new := src }

/-- Go `Time.IsZero`: the zero `Time` is January 1 of year 1, 00:00:00 UTC, which lies
62135596800 seconds before the Unix epoch. -/
def Time.IsZero (t : Time) : Bool := decide (t.ns = -62135596800000000000)

/-- The library's `expiryDelta`: how much earlier than its expiry a token counts as
expired. -/
def expiryDelta : Duration := 10 * Second

/-- The library's `(*oauth2.Token).expired`, at the instant `now` that `timeNow()` returns:
`t.Expiry.Round(0).Add(-expiryDelta).Before(timeNow())`, and never for a zero expiry. -/
def Token.expired (t : Token) (now : Time) : Bool :=
  if t.Expiry.IsZero = true then false
  else (t.Expiry.Add (-expiryDelta)).Before now

/-- The library's `(*oauth2.Token).Valid` for a token that is not nil: it has an access
token and is not expired. -/
def Token.Valid (t : Token) (now : Time) : Bool :=
  decide (t.AccessToken ≠ "") && !t.expired now

/-- The library's `(*reuseTokenSource).Token`: the held token is returned while it is
valid; otherwise the source issues a new one, which is held from then on, and a failure of
the source is passed on. One instant `now` stands for the clock readings of the call.
Returns the result and the wrapper afterwards. -/
def reuseTokenSource.Token (lib : JwtLib) (s : reuseTokenSource) (now : Time) :
    Except GoError Token × reuseTokenSource :=
  match s.t with
  | some t =>
    if t.Valid now = true then (.ok t, s)
    else
      match s.new.Token lib now with
      | .error err => (.error err, s)
      | .ok t1 => (.ok t1, { s with t := some t1 })
  | none =>
    match s.new.Token lib now with
    | .error err => (.error err, s)
    | .ok t1 => (.ok t1, { s with t := some t1 })

/-- A run of `Token()` calls on the wrapper, one at each instant of the list in turn: each
instant with the result of its call. -/
def reuseTokenSource.Tokens (lib : JwtLib) :
    reuseTokenSource → List Time → List (Time × Except GoError githubapp.Token)
  | _, [] => []
  | s, now :: rest =>
    (now, (s.Token lib now).1) :: reuseTokenSource.Tokens lib (s.Token lib now).2 rest

/-- TokenSource returns a token source for github application.
TokenSource will panic if the give private key is invalid. -/
def Config.TokenSource (lib : JwtLib) (c : Config) : Outcome reuseTokenSource :=
  match lib.ParseRSAPrivateKeyFromPEM c.PrivateKey with
  | .error err => .panicked err
  | .ok pk => .returned (ReuseTokenSource none { appID := c.AppID, expire := c.Expire, pk := pk })

/-- The transport `ghinstallation.New` builds, by what it was built from. -/
structure Transport where
  appID : Int
  installationID : Int
  privateKey : List UInt8
deriving DecidableEq, Repr

/-- Go `http.RoundTripper`, for the two transports the package installs. -/
inductive RoundTripper where
  | oauth2 (src : reuseTokenSource)
  | installation (tr : Transport)
deriving DecidableEq, Repr

/-- Go `http.Client`. -/
structure HttpClient where
  Transport : RoundTripper
deriving DecidableEq, Repr

/-- Go `oauth2.NewClient(ctx, src)`: a client whose transport draws tokens from `src`. -/
def oauth2NewClient (src : reuseTokenSource) : HttpClient := { Transport := .oauth2 src }

/-- Client returns an http.Client with oauth2 transport that authenticate
request using an application signed JWT token.
Client will panic if the give private key is invalid. -/
def Config.Client (lib : JwtLib) (c : Config) : Outcome HttpClient :=
  match c.TokenSource lib with
  | .panicked err => .panicked err
  | .returned src => .returned (oauth2NewClient src)

/-! ## strconv.Atoi -/

/-- The error `strconv.ErrSyntax`. -/
def ErrSyntax : GoError := .New "invalid syntax"

/-- The error `strconv.ErrRange`. -/
def ErrRange : GoError := .New "value out of range"

/-- A decimal digit byte. A string is read character by character: every byte of a
character outside ASCII is above 127, so such a character is no digit and no sign, as
none of its bytes is. -/
def isDigit (c : Char) : Bool := decide ('0' ≤ c ∧ c ≤ '9')

/-- The number a string of decimal digits denotes. -/
def digitsValue (ds : List Char) : Nat :=
  ds.foldl (fun n c => n * 10 + (c.toNat - '0'.toNat)) 0

/-- The largest `uint64`. -/
def maxUint64 : Nat := 2 ^ 64 - 1

/-- Whether the string starts with a minus sign. -/
def negative (s : List Char) : Bool := decide (s.head? = some '-')

/-- The string without its leading sign, if it has one. -/
def unsigned : List Char → List Char
  | '+' :: r => r
  | '-' :: r => r
  | cs => cs

/-- The loop of Go `strconv.ParseUint(s, 10, 64)` over the bytes still to read, `n` being
the `uint64` read so far: a byte that is no digit is a syntax error; a digit that would
take the number beyond `uint64` is a range error with the largest `uint64`, returned at
once, whatever follows. -/
def parseUintLoop : List Char → Nat → Nat × Option GoError
  | [], n => (n, none)
  | c :: rest, n =>
    if isDigit c = false then (0, some ErrSyntax)
    else if n ≥ maxUint64 / 10 + 1 then (maxUint64, some ErrRange)
    else
      let n10 := n * 10 % 2 ^ 64
      let n1 := (n10 + (c.toNat - '0'.toNat)) % 2 ^ 64
      if n1 < n10 ∨ n1 > maxUint64 then (maxUint64, some ErrRange)
      else parseUintLoop rest n1

/-- Go `strconv.ParseUint(s, 10, 64)`. -/
def ParseUint (s : List Char) : Nat × Option GoError :=
  if s = [] then (0, some ErrSyntax) else parseUintLoop s 0

/-- Go `strconv.ParseInt(s, 10, 0)` where `int` has 64 bits: the sign is picked off, the
rest is read by `ParseUint`; an error other than a range error gives 0, and a number out
of the range of `int64` gives the nearest bound and a range error. -/
def ParseInt (s : List Char) : Int × Option GoError :=
  if s = [] then (0, some ErrSyntax)
  else
    let neg := negative s
    let r := ParseUint (unsigned s)
    if r.2 ≠ none ∧ r.2 ≠ some ErrRange then (0, r.2)
    else if neg = false ∧ r.1 ≥ 2 ^ 63 then ((2 : Int) ^ 63 - 1, some ErrRange)
    else if neg = true ∧ r.1 > 2 ^ 63 then (-(2 : Int) ^ 63, some ErrRange)
    else (if neg = true then -(r.1 : Int) else (r.1 : Int), none)

/-- The loop of the fast path of Go `strconv.Atoi`: none stands for the syntax error. The
path is taken by fewer than 19 bytes only, so the `int` read cannot overflow. -/
def atoiLoop : List Char → Nat → Option Nat
  | [], n => some n
  | c :: rest, n =>
    if isDigit c = false then none
    else atoiLoop rest (n * 10 + (c.toNat - '0'.toNat))

/-- Go `strconv.Atoi(s)` where `int` has 64 bits: a string of 1 to 18 bytes takes the fast
path, every other string goes through `ParseInt(s, 10, 0)`. -/
def Atoi (s : String) : Int × Option GoError :=
  let sLen := s.utf8ByteSize
  if 0 < sLen ∧ sLen < 19 then
    if unsigned s.toList = [] then (0, some ErrSyntax)
    else
      match atoiLoop (unsigned s.toList) 0 with
      | none => (0, some ErrSyntax)
      | some n => (if negative s.toList = true then -(n : Int) else (n : Int), none)
  else ParseInt s.toList

/-! ## app.go -/

/-- The address of an `Installation` object: its index in the heap. -/
abbrev Ptr := Nat

/-- A Go `interface{}` value as the cache sees it: the nil interface, a `*Installation`
(possibly a nil pointer), or a value of some other type. -/
inductive Iface where
  | nil
  | installation (p : Option Ptr)
  | other (descr : String)
deriving DecidableEq, Repr

/-- Cache is a common interface for cache, over the state `σ` of the cache object.
Get returns an object from the cache by key. If the object does not exists, it should
return nil. Set sets an object by a string key in the cache. -/
structure Cache (σ : Type) where
  Get : σ → String → Iface
  Set : σ → String → Iface → σ

/-- Go `github.Client`, by the http client it was built on. -/
structure GithubClient where
  client : HttpClient
deriving DecidableEq, Repr

/-- Go `github.NewClient(httpClient)`. -/
def githubNewClient (cl : HttpClient) : GithubClient := { client := cl }

/-- The record `Apps.FindUserInstallation` returns; `ID` is a pointer and may be nil. -/
structure GhInstallation where
  ID : Option Int
deriving DecidableEq, Repr

/-- Go `(*github.Installation).GetID`: the ID, or 0 when it is nil. -/
def GhInstallation.GetID (i : GhInstallation) : Int := i.ID.getD 0

/-- The libraries app.go calls: `Apps.FindUserInstallation` on the application client and
`ghinstallation.New(http.DefaultTransport, appID, installID, privateKey)`. -/
structure GithubLib where
  FindUserInstallation : GithubClient → String → Except GoError GhInstallation
  New : Int → Int → List UInt8 → Except GoError Transport

/-- Installation holds installation clients and information. -/
structure Installation where
  Client : HttpClient
  Github : GithubClient
  ID : Int
deriving DecidableEq, Repr

/-- App is a struct for github application that can produce installation clients.
The field `cache` is none when the Go field is the nil interface. -/
structure App (σ : Type) where
  Client : GithubClient
  cfg : Config
  cache : Option (Cache σ)

/-- A call the package makes on its cache or on a library. -/
inductive Event where
  | cacheGet (key : String)
  | cacheSet (key : String) (v : Iface)
  | findUserInstallation (login : String)
  | ghinstallationNew (appID installID : Int) (privateKey : List UInt8)
deriving DecidableEq, Repr

/-- What the package mutates: the state of the cache object, the `Installation` objects
allocated so far (a pointer is an index), and the calls made so far, oldest first. -/
structure World (σ : Type) where
  store : σ
  heap : List Installation
  trace : List Event

/-- Records a call. -/
def World.log {σ : Type} (w : World σ) (e : Event) : World σ :=
  { w with trace := w.trace ++ [e] }

/-- Allocates `&Installation{...}`: the new object gets the next address. -/
def World.alloc {σ : Type} (w : World σ) (i : Installation) : Ptr × World σ :=
  (w.heap.length, { w with heap := w.heap ++ [i] })

/-- Option is an option for new applications. -/
abbrev AppOption (σ : Type) := App σ → App σ

/-- OptWithCache is an option to use cache to hold the clients. -/
def OptWithCache {σ : Type} (c : Option (Cache σ)) : AppOption σ :=
  fun a => { a with cache := c }

/-- NewApp returns a Github app object. -/
def Config.NewApp {σ : Type} (lib : JwtLib) (c : Config) (opts : List (AppOption σ)) :
    Outcome (App σ) :=
  match c.Client lib with
  | .panicked err => .panicked err
  | .returned cl =>
    let a : App σ := { Client := githubNewClient cl, cfg := c, cache := none }
    .returned (opts.foldl (fun a opt => opt a) a)

/-- The key an installation is cached under. -/
def cacheKey (login : String) : String := "installation/" ++ login

/-- The panic of the failed type assertion `i.(*Installation)`. -/
def assertionPanic : GoError := .New "interface conversion: interface is not *Installation"

/-- The method `App.fromCache`: the cached pointer (none for nil), or a panic when the
cache holds a value of another type. -/
def App.fromCache {σ : Type} (a : App σ) (w : World σ) (login : String) :
    Outcome (Option Ptr × World σ) :=
  match a.cache with
  | none => .returned (none, w)
  | some c =>
    let w1 := w.log (.cacheGet (cacheKey login))
    match c.Get w.store (cacheKey login) with
    | .nil => .returned (none, w1)
    | .installation p => .returned (p, w1)
    | .other _ => .panicked assertionPanic

/-- The method `App.toCache`. -/
def App.toCache {σ : Type} (a : App σ) (w : World σ) (login : String) (i : Ptr) : World σ :=
  match a.cache with
  | none => w
  | some c =>
    let v := Iface.installation (some i)
    { (w.log (.cacheSet (cacheKey login) v)) with store := c.Set w.store (cacheKey login) v }

/-- Installation returns github installation client for a given user login: the pair
`(*Installation, error)` and the world afterwards. Go's `int` is taken to have 64 bits, so
`int(install.GetID())` is the ID itself. -/
def App.Installation {σ : Type} (lib : GithubLib) (a : App σ) (w : World σ) (login : String) :
    Outcome ((Option Ptr × Option GoError) × World σ) :=
  match a.fromCache w login with
  | .panicked err => .panicked err
  | .returned (some inst, w1) => .returned ((some inst, none), w1)
  | .returned (none, w1) =>
    let w2 := w1.log (.findUserInstallation login)
    match lib.FindUserInstallation a.Client login with
    | .error err => .returned ((none, some (Wrap err "failed getting user installation")), w2)
    | .ok install =>
      let installID := install.GetID
      let appID := (Atoi a.cfg.AppID).1
      let w3 := w2.log (.ghinstallationNew appID installID a.cfg.PrivateKey)
      match lib.New appID installID a.cfg.PrivateKey with
      | .error err => .returned ((none, some (Wrap err "get install transport")), w3)
      | .ok tr =>
        let cl : HttpClient := { Transport := .installation tr }
        let (inst, w4) := w3.alloc { Client := cl, Github := githubNewClient cl, ID := installID }
        .returned ((some inst, none), a.toCache w4 login inst)

/-! ## cache/cache.go -/

/-- The operations of the backing store `patrickmn.Cache` the adapter embeds, over its
state `σ`: `Get` returns the object and whether it was found. -/
structure Store (σ : Type) where
  Get : σ → String → Iface × Bool
  SetDefault : σ → String → Iface → σ

/-- The method `Cache.Get` of the adapter. -/
def cache.Get {σ : Type} (b : Store σ) (s : σ) (k : String) : Iface :=
  match b.Get s k with
  | (_, false) => .nil
  | (v, true) => v

/-- The method `Cache.Set` of the adapter. -/
def cache.Set {σ : Type} (b : Store σ) (s : σ) (k : String) (v : Iface) : σ :=
  b.SetDefault s k v

/-- The adapter as a `Cache` of app.go. -/
def cache.Cache {σ : Type} (b : Store σ) : Cache σ :=
  { Get := cache.Get b, Set := cache.Set b }

/-! ## Sequences of calls, lawful caches, decimal numerals -/

/-- A run of `App.Installation` calls, one after the other, each with the login asked for
and the behaviour of the libraries at that time; the world after the last call. -/
def App.Installations {σ : Type} (a : App σ) (w : World σ) :
    List (GithubLib × String) → Outcome (World σ)
  | [] => .returned w
  | (lib, login) :: rest =>
    match a.Installation lib w login with
    | .panicked err => .panicked err
    | .returned (_, w1) => a.Installations w1 rest

/-- A cache that returns what was last set for a key. -/
def Cache.Lawful {σ : Type} (c : Cache σ) : Prop :=
  (∀ s k v, c.Get (c.Set s k v) k = v) ∧
  (∀ s k k1 v, k1 ≠ k → c.Get (c.Set s k1 v) k = c.Get s k)

/-- The integer an optionally signed, non-empty string of decimal digits denotes; none
for any other string. -/
def decimalValue (s : String) : Option Int :=
  if unsigned s.toList ≠ [] ∧ (unsigned s.toList).all isDigit = true then
    some (if negative s.toList = true then -(digitsValue (unsigned s.toList) : Int)
          else (digitsValue (unsigned s.toList) : Int))
  else none

/-! ## Concurrent calls

Calls of `App.Installation` running at once are interleavings of their steps. A call makes
four of them: `fromCache`, which holds the read lock around the `Get`; the lookup; the
exchange followed by the allocation of the `Installation`; and `toCache`, which holds the
write lock around the `Set`. -/

/-- Where one call of `App.Installation` stands. -/
inductive Call where
  | start
  | lookup
  | exchange (install : GhInstallation)
  | store (inst : Ptr)
  | done (r : Option Ptr × Option GoError)
  | panicked (err : GoError)
deriving DecidableEq, Repr

/-- The next step of a call of `App.Installation` for `login`. -/
def App.step {σ : Type} (lib : GithubLib) (a : App σ) (login : String) (t : Call)
    (w : World σ) : Call × World σ :=
  match t with
  | .start =>
    match a.fromCache w login with
    | .panicked err => (.panicked err, w)
    | .returned (some inst, w1) => (.done (some inst, none), w1)
    | .returned (none, w1) => (.lookup, w1)
  | .lookup =>
    let w2 := w.log (.findUserInstallation login)
    match lib.FindUserInstallation a.Client login with
    | .error err => (.done (none, some (Wrap err "failed getting user installation")), w2)
    | .ok install => (.exchange install, w2)
  | .exchange install =>
    let installID := install.GetID
    let appID := (Atoi a.cfg.AppID).1
    let w3 := w.log (.ghinstallationNew appID installID a.cfg.PrivateKey)
    match lib.New appID installID a.cfg.PrivateKey with
    | .error err => (.done (none, some (Wrap err "get install transport")), w3)
    | .ok tr =>
      let cl : HttpClient := { Transport := .installation tr }
      let (inst, w4) := w3.alloc { Client := cl, Github := githubNewClient cl, ID := installID }
      (.store inst, w4)
  | .store inst => (.done (some inst, none), a.toCache w login inst)
  | .done r => (.done r, w)
  | .panicked err => (.panicked err, w)

/-- Runs calls for `login` at once: `sched` names, step after step, the call that moves. -/
def App.interleave {σ : Type} (lib : GithubLib) (a : App σ) (login : String) :
    List Nat → List Call × World σ → List Call × World σ
  | [], cfg => cfg
  | i :: rest, (ts, w) =>
    match ts[i]? with
    | none => App.interleave lib a login rest (ts, w)
    | some t => App.interleave lib a login rest
        (ts.set i (a.step lib login t w).1, (a.step lib login t w).2)

/-- The value of the last `Set` for `key` among the calls traced, if any. -/
def lastSet (key : String) (trace : List Event) : Option Iface :=
  trace.foldl (fun acc e =>
    match e with
    | .cacheSet k v => if k = key then some v else acc
    | _ => acc) none

/-- The steps a call has yet to make, at most. -/
def Call.rank : Call → Nat
  | .start => 4
  | .lookup => 3
  | .exchange _ => 2
  | .store _ => 1
  | .done _ => 0
  | .panicked _ => 0

/-- The object at `p` is an `Installation` with every field set: the client on the
transport of the exchange, the API client on that client, and the ID of the lookup. -/
def Populated {σ : Type} (lib : GithubLib) (a : App σ) (login : String)
    (heap : List Installation) (p : Ptr) : Prop :=
  ∃ install tr, lib.FindUserInstallation a.Client login = .ok install ∧
    lib.New (Atoi a.cfg.AppID).1 install.GetID a.cfg.PrivateKey = .ok tr ∧
    heap[p]? = some { Client := { Transport := .installation tr },
                      Github := githubNewClient { Transport := .installation tr },
                      ID := install.GetID }

/-- What holds of a call at each point, in a run with libraries that do not fail. -/
def Call.Ok {σ : Type} (lib : GithubLib) (a : App σ) (login : String) (w : World σ) :
    Call → Prop
  | .start => True
  | .lookup => True
  | .exchange install => lib.FindUserInstallation a.Client login = .ok install
  | .store inst => Populated lib a login w.heap inst
  | .done r => ∃ p, r = (some p, none) ∧ Populated lib a login w.heap p ∧
      (lastSet (cacheKey login) w.trace).isSome = true
  | .panicked _ => False

/-- The cache holds under the key of `login` what was last set for it, an `Installation`
with every field set, or nothing if nothing was set. -/
def CacheOk {σ : Type} (lib : GithubLib) (a : App σ) (c : Cache σ) (login : String)
    (w : World σ) : Prop :=
  c.Get w.store (cacheKey login) = (lastSet (cacheKey login) w.trace).getD .nil ∧
  ∀ v, lastSet (cacheKey login) w.trace = some v →
    ∃ p, v = .installation (some p) ∧ Populated lib a login w.heap p

/-- The run of `n` calls for `login` at once under the schedule `sched`, from a world
with cache state `s0`, heap `h0` and no call made yet. -/
def App.concurrent {σ : Type} (lib : GithubLib) (a : App σ) (login : String) (n : Nat)
    (s0 : σ) (h0 : List githubapp.Installation) (sched : List Nat) : List Call × World σ :=
  a.interleave lib login sched (List.replicate n .start, { store := s0, heap := h0, trace := [] })

/-! ## Concrete instances, for evaluation -/

/-- A library instance: the empty key does not parse, signing joins the header algorithm
and the issuer. -/
def exampleJwt : JwtLib where
  ParseRSAPrivateKeyFromPEM := fun b =>
    if b = [] then .error (.New "invalid key") else .ok { N := b.length, E := 65537, D := 1 }
  Encode := fun h cs _ => .ok (h.Algorithm ++ "." ++ cs.Iss)

/-- A configuration with a key `exampleJwt` parses and a lifetime of one minute. -/
def exampleConfig : Config := { AppID := "1234", PrivateKey := [45, 45], Expire := 60000000000 }

/-- A configuration whose key does not parse. -/
def badKeyConfig : Config := { AppID := "1234", PrivateKey := [], Expire := 0 }

/-- The key `exampleJwt` parses from `exampleConfig`. -/
def exampleKey : PrivateKey := { N := 2, E := 65537, D := 1 }

/-- The token source of `exampleConfig`. -/
def exampleSource : appSource := { appID := "1234", expire := 60000000000, pk := exampleKey }

/-- A library instance like `exampleJwt` whose signing also writes the expiry claim. -/
def claimsJwt : JwtLib where
  ParseRSAPrivateKeyFromPEM := fun b =>
    if b = [] then .error (.New "invalid key") else .ok { N := b.length, E := 65537, D := 1 }
  Encode := fun h cs _ => .ok (h.Algorithm ++ "." ++ cs.Iss ++ "." ++ toString cs.Exp)

/-- A configuration with a lifetime of one nanosecond. -/
def tinyConfig : Config := { AppID := "1234", PrivateKey := [45, 45], Expire := 1 }

/-- The token source of `tinyConfig`. -/
def tinySource : appSource := { appID := "1234", expire := 1, pk := exampleKey }

/-- A cache that keeps every pair set, newest first, and returns the newest for a key. -/
def mapCache : Cache (List (String × Iface)) where
  Get := fun s k => (s.lookup k).getD .nil
  Set := fun s k v => (k, v) :: s

/-- A library instance: the login "ghost" has no installation, every other login has
installation 42; the transport is refused for an empty key. -/
def exampleGithub : GithubLib where
  FindUserInstallation := fun _ login =>
    if login = "ghost" then .error (.New "404 Not Found") else .ok { ID := some 42 }
  New := fun appID installID key =>
    if key = [] then .error (.New "could not parse private key")
    else .ok { appID := appID, installationID := installID, privateKey := key }

/-- A library instance in which every call fails. -/
def failingGithub : GithubLib where
  FindUserInstallation := fun _ _ => .error (.New "network unreachable")
  New := fun _ _ _ => .error (.New "network unreachable")

/-- The application `exampleConfig.NewApp` builds with `mapCache` as its cache. -/
def exampleApp : App (List (String × Iface)) :=
  { Client := githubNewClient (oauth2NewClient { t := none, new := exampleSource }),
    cfg := exampleConfig, cache := some mapCache }

/-- The world before any call: an empty cache, no object, no call. -/
def emptyWorld : World (List (String × Iface)) := { store := [], heap := [], trace := [] }

/-- The application of `exampleApp` with an identifier one above the largest `int`. -/
def outOfRangeApp : App (List (String × Iface)) :=
  { exampleApp with cfg := { exampleConfig with AppID := "9223372036854775808" } }

/-- The application of `exampleApp` with an identifier that is not a number. -/
def namedApp : App (List (String × Iface)) :=
  { exampleApp with cfg := { exampleConfig with AppID := "my-app" } }

/-- An entry of the expiring store: the object and the instant it expires at, in
nanoseconds since the epoch; 0 for an entry that never expires. -/
structure Item where
  Object : Iface
  Expiration : Int
deriving DecidableEq, Repr

/-- The state of the expiring store: its entries, newest first, its default lifetime for
an entry, and the present instant in nanoseconds. -/
structure ExpiringState where
  items : List (String × Item)
  defaultExpiration : Duration
  now : Int
deriving DecidableEq, Repr

/-- Modelled from the spec: the expiring key-value store behind the adapter, a library
outside this package. An entry is set with the store's default lifetime and is found
until it has expired. -/
def expiringStore : Store ExpiringState where
  Get := fun s k =>
    match s.items.lookup k with
    | none => (.nil, false)
    | some item =>
      if item.Expiration > 0 ∧ s.now > item.Expiration then (.nil, false)
      else (item.Object, true)
  SetDefault := fun s k v =>
    { s with items := (k, { Object := v, Expiration :=
        if s.defaultExpiration > 0 then s.now + s.defaultExpiration else 0 }) :: s.items }

/-- An empty expiring store at instant 1000 whose entries live for 500 nanoseconds. -/
def emptyStore : ExpiringState := { items := [], defaultExpiration := 500, now := 1000 }

/-- A library instance in which no call fails: every login has installation 42. -/
def reliableGithub : GithubLib where
  FindUserInstallation := fun _ _ => .ok { ID := some 42 }
  New := fun appID installID key =>
    .ok { appID := appID, installationID := installID, privateKey := key }

/-! ## Theorems: the token source -/

theorem maxExpires_eq : maxExpires = 600000000000 := by
  simp [maxExpires, Minute, Second]

theorem adjustExpire_pos (L : Duration) : 0 < adjustExpire L := by
  unfold adjustExpire
  rw [maxExpires_eq]
  unfold Duration at *
  split <;> omega

theorem adjustExpire_le (L : Duration) : adjustExpire L ≤ 600000000000 := by
  unfold adjustExpire
  rw [maxExpires_eq]
  unfold Duration at *
  split <;> omega

theorem appSource_Token_eq (lib : JwtLib) (js : appSource) (now : Time) :
    js.Token lib now =
      match lib.Encode defaultHeader
          { Iss := js.appID, Exp := (now.Add (adjustExpire js.expire)).Unix } js.pk with
      | .error err => .error err
      | .ok payload => .ok { TokenType := "bearer", AccessToken := payload,
                             Expiry := now.Add (adjustExpire js.expire) } := rfl

theorem appSource_Token_ok (lib : JwtLib) (js : appSource) (now : Time) (tok : Token)
    (h : js.Token lib now = .ok tok) :
    tok.TokenType = "bearer" ∧ tok.Expiry = now.Add (adjustExpire js.expire) ∧
      lib.Encode defaultHeader
        { Iss := js.appID, Exp := (now.Add (adjustExpire js.expire)).Unix } js.pk
        = .ok tok.AccessToken := by
  rw [appSource_Token_eq] at h
  split at h
  · cases h
  · next payload heq =>
    cases h
    exact ⟨rfl, rfl, heq⟩

/-- C1: for every requested lifetime `L` (zero and negative values included), the
lifetime `appSource.Token` uses is `L` when `0 < L ≤ 10 minutes` and exactly 10 minutes
(600000000000 ns) otherwise; every token the method returns expires that long after the
instant of issuance. -/
theorem effective_lifetime (L : Duration) :
    adjustExpire L = (if 0 < L ∧ L ≤ 10 * Minute then L else 10 * Minute) ∧
    10 * Minute = 600000000000 ∧
    ∀ (lib : JwtLib) (appID : String) (pk : PrivateKey) (now : Time) (tok : Token),
      appSource.Token lib { appID := appID, expire := L, pk := pk } now = .ok tok →
      tok.Expiry.ns - now.ns = (if 0 < L ∧ L ≤ 10 * Minute then L else 10 * Minute) := by
  have h1 : adjustExpire L = (if 0 < L ∧ L ≤ 10 * Minute then L else 10 * Minute) := by
    unfold adjustExpire maxExpires
    unfold Duration at *
    by_cases h : 0 < L ∧ L ≤ 10 * Minute
    · rw [if_pos h, if_neg (by omega)]
    · rw [if_neg h, if_pos (by omega)]
  refine ⟨h1, by simp [Minute, Second], ?_⟩
  intro lib appID pk now tok h
  obtain ⟨_, hexp, _⟩ := appSource_Token_ok lib _ now tok h
  rw [hexp, ← h1]
  simp [Time.Add]

theorem appSource_Token_of_encode (lib : JwtLib) (js : appSource) (now : Time)
    (payload : String)
    (h : lib.Encode defaultHeader
      { Iss := js.appID, Exp := (now.Add (adjustExpire js.expire)).Unix } js.pk
      = .ok payload) :
    js.Token lib now = .ok { TokenType := "bearer", AccessToken := payload,
                             Expiry := now.Add (adjustExpire js.expire) } := by
  rw [appSource_Token_eq, h]

/-- C2: every token `appSource.Token` returns has type "bearer" and an expiry of exactly
the instant of issuance plus the effective lifetime, so the expiry is strictly later than
that instant and at most 10 minutes ahead of it; and whenever the encoder signs the claim
set of that instant, the method does return such a token, with the signed string as its
access token. -/
theorem token_bearer_expiry (lib : JwtLib) (js : appSource) (now : Time) :
    (∀ tok, js.Token lib now = .ok tok →
      tok.TokenType = "bearer" ∧ tok.Expiry = now.Add (adjustExpire js.expire) ∧
      now.Before tok.Expiry = true ∧ tok.Expiry.After now = true ∧
      tok.Expiry.ns - now.ns ≤ 600000000000) ∧
    (∀ payload, lib.Encode defaultHeader
        { Iss := js.appID, Exp := (now.Add (adjustExpire js.expire)).Unix } js.pk
        = .ok payload →
      js.Token lib now = .ok { TokenType := "bearer", AccessToken := payload,
                               Expiry := now.Add (adjustExpire js.expire) }) := by
  constructor
  · intro tok h
    obtain ⟨hty, hexp, _⟩ := appSource_Token_ok lib js now tok h
    have hp := adjustExpire_pos js.expire
    have hl := adjustExpire_le js.expire
    unfold Duration at *
    refine ⟨hty, hexp, ?_, ?_, ?_⟩
    · rw [hexp]; simp only [Time.Before, Time.Add, decide_eq_true_eq]; omega
    · rw [hexp]; simp only [Time.After, Time.Add, decide_eq_true_eq]; omega
    · rw [hexp]; simp only [Time.Add]; omega
  · intro payload hp
    exact appSource_Token_of_encode lib js now payload hp

theorem token_bearer_expiry_witness :
    exampleSource.Token exampleJwt ⟨1700000000123456789⟩
      = .ok { TokenType := "bearer", AccessToken := "RS256.1234",
              Expiry := (Time.mk 1700000000123456789).Add (adjustExpire exampleSource.expire) } :=
  (token_bearer_expiry exampleJwt exampleSource ⟨1700000000123456789⟩).2 "RS256.1234" rfl

/-- C3: for every configuration and instant of issuance there is one claim set that
`appSource.Token` hands, with the header alg RS256 and typ JWT, to the encoder, whatever
the encoder is: its issuer is the configured application identifier, its expiry claim is
the whole epoch seconds of the returned token's expiry, and that claim is within one
second of the instant of issuance plus the effective lifetime. -/
theorem claim_set_round_trip (js : appSource) (now : Time) :
    ∃ cs : ClaimSet,
      cs.Iss = js.appID ∧
      cs.Exp = (now.Add (adjustExpire js.expire)).Unix ∧
      cs.Exp * 1000000000 ≤ now.ns + adjustExpire js.expire ∧
      now.ns + adjustExpire js.expire < (cs.Exp + 1) * 1000000000 ∧
      ∀ lib : JwtLib, js.Token lib now =
        match lib.Encode { Algorithm := "RS256", Typ := "JWT" } cs js.pk with
        | .error err => .error err
        | .ok payload => .ok { AccessToken := payload, TokenType := "bearer",
                               Expiry := now.Add (adjustExpire js.expire) } := by
  refine ⟨{ Iss := js.appID, Exp := (now.Add (adjustExpire js.expire)).Unix }, rfl, rfl,
    ?_, ?_, fun lib => rfl⟩
  · simp only [Time.Unix, Time.Add]
    unfold Duration at *
    omega
  · simp only [Time.Unix, Time.Add]
    unfold Duration at *
    omega

theorem effective_lifetime_witness :
    (Token.mk "RS256.1234" "bearer" ⟨60000000005⟩).Expiry.ns - (Time.mk 5).ns
      = (if 0 < (60000000000 : Duration) ∧ (60000000000 : Duration) ≤ 10 * Minute
          then 60000000000 else 10 * Minute) :=
  (effective_lifetime 60000000000).2.2 exampleJwt "1234" exampleKey ⟨5⟩
    ⟨"RS256.1234", "bearer", ⟨60000000005⟩⟩ rfl

/-! ## Theorems: reuse of the token -/

theorem expiryDelta_eq : expiryDelta = 10000000000 := by
  simp [expiryDelta, Second]

theorem Token_Valid_of (tok : Token) (now : Time) (hacc : tok.AccessToken ≠ "")
    (h : now.ns + 10000000000 ≤ tok.Expiry.ns) : tok.Valid now = true := by
  have hx : tok.expired now = false := by
    unfold Token.expired
    split
    · rfl
    · rw [expiryDelta_eq]
      simp only [Time.Before, Time.Add, decide_eq_false_iff_not]
      omega
  simp [Token.Valid, hx, hacc]

theorem Token_not_Valid_of (tok : Token) (now : Time) (hz : tok.Expiry.IsZero = false)
    (h : tok.Expiry.ns < now.ns + 10000000000) : tok.Valid now = false := by
  have hx : tok.expired now = true := by
    unfold Token.expired
    rw [hz, expiryDelta_eq]
    simp only [Bool.false_eq_true, if_false, Time.Before, Time.Add, decide_eq_true_eq]
    omega
  simp [Token.Valid, hx]

theorem Token_Valid_not_before (tok : Token) (now : Time) (hz : tok.Expiry.IsZero = false)
    (h : tok.Valid now = true) : tok.Expiry.Before now = false := by
  simp only [Token.Valid, Bool.and_eq_true, Bool.not_eq_true'] at h
  have hx := h.2
  unfold Token.expired at hx
  rw [hz, expiryDelta_eq] at hx
  simp only [Bool.false_eq_true, if_false, Time.Before, Time.Add,
    decide_eq_false_iff_not] at hx
  simp only [Time.Before, decide_eq_false_iff_not]
  omega

theorem reuse_Token_none (lib : JwtLib) (src : appSource) (now : Time) (tok : Token)
    (h : src.Token lib now = .ok tok) :
    reuseTokenSource.Token lib { t := none, new := src } now
      = (.ok tok, { t := some tok, new := src }) := by
  simp only [reuseTokenSource.Token, h]

theorem reuse_Token_valid (lib : JwtLib) (src : appSource) (now : Time) (tok : Token)
    (h : tok.Valid now = true) :
    reuseTokenSource.Token lib { t := some tok, new := src } now
      = (.ok tok, { t := some tok, new := src }) := by
  simp only [reuseTokenSource.Token, h, if_true]

theorem reuse_Token_invalid (lib : JwtLib) (src : appSource) (now : Time) (tok tok1 : Token)
    (h : tok.Valid now = false) (h1 : src.Token lib now = .ok tok1) :
    reuseTokenSource.Token lib { t := some tok, new := src } now
      = (.ok tok1, { t := some tok1, new := src }) := by
  simp only [reuseTokenSource.Token, h, h1, Bool.false_eq_true, if_false]

theorem fresh_not_before (lib : JwtLib) (src : appSource) (now : Time) (tok : Token)
    (h : src.Token lib now = .ok tok) : tok.Expiry.Before now = false := by
  obtain ⟨_, hexp, _⟩ := appSource_Token_ok lib src now tok h
  have hp := adjustExpire_pos src.expire
  unfold Duration at *
  rw [hexp]
  simp only [Time.Before, Time.Add, decide_eq_false_iff_not]
  omega

theorem reuse_Token_step (lib : JwtLib) (s : reuseTokenSource) (now : Time)
    (hheld : ∀ t0, s.t = some t0 → t0.Expiry.IsZero = false)
    (hnow : (now.Add (adjustExpire s.new.expire)).IsZero = false) :
    (s.Token lib now).2.new = s.new ∧
    (∀ t0, (s.Token lib now).2.t = some t0 → t0.Expiry.IsZero = false) ∧
    (∀ tok, (s.Token lib now).1 = .ok tok → tok.Expiry.Before now = false) := by
  have hfresh : ∀ tok, s.new.Token lib now = .ok tok →
      tok.Expiry.IsZero = false ∧ tok.Expiry.Before now = false := by
    intro tok h
    obtain ⟨_, hexp, _⟩ := appSource_Token_ok lib s.new now tok h
    exact ⟨by rw [hexp]; exact hnow, fresh_not_before lib s.new now tok h⟩
  unfold reuseTokenSource.Token
  cases hs : s.t with
  | none =>
    simp only
    cases hn : s.new.Token lib now with
    | error err =>
      simp only
      refine ⟨trivial, ?_, ?_⟩
      · intro t0 h0; exact hheld t0 h0
      · intro tok h; cases h
    | ok t1 =>
      simp only
      refine ⟨trivial, ?_, ?_⟩
      · intro t0 h0
        cases h0
        exact (hfresh t1 hn).1
      · intro tok h
        cases h
        exact (hfresh t1 hn).2
  | some t =>
    simp only
    by_cases hv : t.Valid now = true
    · simp only [hv, if_true]
      refine ⟨trivial, ?_, ?_⟩
      · intro t0 h0; exact hheld t0 h0
      · intro tok h
        cases h
        exact Token_Valid_not_before t now (hheld t hs) hv
    · simp only [hv, if_false]
      cases hn : s.new.Token lib now with
      | error err =>
        simp only
        refine ⟨rfl, ?_, ?_⟩
        · intro t0 h0; exact hheld t0 h0
        · intro tok h; cases h
      | ok t1 =>
        simp only
        refine ⟨rfl, ?_, ?_⟩
        · intro t0 h0
          cases h0
          exact (hfresh t1 hn).1
        · intro tok h
          cases h
          exact (hfresh t1 hn).2

theorem reuse_Tokens_not_before (lib : JwtLib) (ts : List Time) :
    ∀ s : reuseTokenSource, (∀ t0, s.t = some t0 → t0.Expiry.IsZero = false) →
      (∀ t ∈ ts, (t.Add (adjustExpire s.new.expire)).IsZero = false) →
      ∀ t tok, (t, Except.ok tok) ∈ s.Tokens lib ts → tok.Expiry.Before t = false := by
  induction ts with
  | nil =>
    intro s _ _ t tok h
    simp [reuseTokenSource.Tokens] at h
  | cons now rest ih =>
    intro s hheld hts t tok h
    obtain ⟨hnew, hheld1, hret⟩ := reuse_Token_step lib s now hheld
      (hts now (List.mem_cons_self _ _))
    simp only [reuseTokenSource.Tokens, List.mem_cons, Prod.mk.injEq] at h
    rcases h with ⟨rfl, hres⟩ | hmem
    · exact hret tok hres.symm
    · refine ih (s.Token lib now).2 hheld1 ?_ t tok hmem
      intro u hu
      rw [hnew]
      exact hts u (List.mem_cons_of_mem _ hu)

/-- C4, as amended: for every configuration whose key parses and signs, the token source
that `Config.TokenSource` returns issues a token at the first call. A later call made no
later than 10 seconds before that token's expiry returns the very same token (hence a
byte-identical access token) and leaves the source as it was. A call made later than that,
in particular after the expiry, issues a new token: its expiry is the instant of the call
plus the effective lifetime, so it is a different token with a strictly later expiry when
the call is later than the first; its access token is what the encoder gives for the
issuer and the epoch second of the new expiry, so it is byte-identical to the first when
both expiries fall in the same second and differs when they do not and the encoder tells
claim sets apart. In no run of calls is a token returned whose expiry is before the instant
of its call. -/
theorem reuse_until_expiry (lib : JwtLib) (c : Config) (pk : PrivateKey)
    (hpk : lib.ParseRSAPrivateKeyFromPEM c.PrivateKey = .ok pk)
    (hsign : ∀ h cs, ∃ payload, lib.Encode h cs pk = .ok payload) (t1 : Time) :
    ∃ src tok1 src1,
      c.TokenSource lib = .returned src ∧
      src.Token lib t1 = (.ok tok1, src1) ∧
      tok1.Expiry = t1.Add (adjustExpire c.Expire) ∧
      lib.Encode defaultHeader { Iss := c.AppID, Exp := tok1.Expiry.Unix } pk
        = .ok tok1.AccessToken ∧
      (tok1.AccessToken ≠ "" → ∀ t2 : Time, t2.ns + 10000000000 ≤ tok1.Expiry.ns →
        src1.Token lib t2 = (.ok tok1, src1)) ∧
      (tok1.Expiry.IsZero = false → ∀ t3 : Time, tok1.Expiry.ns < t3.ns + 10000000000 →
        ∃ tok3 src3, src1.Token lib t3 = (.ok tok3, src3) ∧
          tok3.Expiry = t3.Add (adjustExpire c.Expire) ∧
          lib.Encode defaultHeader { Iss := c.AppID, Exp := tok3.Expiry.Unix } pk
            = .ok tok3.AccessToken ∧
          (t1.ns < t3.ns → tok3 ≠ tok1 ∧ tok1.Expiry.ns < tok3.Expiry.ns) ∧
          (tok3.Expiry.Unix = tok1.Expiry.Unix → tok3.AccessToken = tok1.AccessToken) ∧
          ((∀ cs1 cs2 payload, lib.Encode defaultHeader cs1 pk = .ok payload →
              lib.Encode defaultHeader cs2 pk = .ok payload → cs1 = cs2) →
            tok3.Expiry.Unix ≠ tok1.Expiry.Unix → tok3.AccessToken ≠ tok1.AccessToken)) ∧
      (∀ ts : List Time, (∀ t ∈ ts, (t.Add (adjustExpire c.Expire)).IsZero = false) →
        ∀ t tok, (t, Except.ok tok) ∈ src.Tokens lib ts → tok.Expiry.Before t = false) := by
  have hsrc : c.TokenSource lib = .returned
      { t := none, new := { appID := c.AppID, expire := c.Expire, pk := pk } } := by
    simp only [Config.TokenSource, hpk, ReuseTokenSource]
  obtain ⟨payload1, hp1⟩ := hsign defaultHeader
    { Iss := c.AppID, Exp := (t1.Add (adjustExpire c.Expire)).Unix }
  have h1 := appSource_Token_of_encode lib
    { appID := c.AppID, expire := c.Expire, pk := pk } t1 payload1 hp1
  refine ⟨_, _, _, hsrc, reuse_Token_none lib _ t1 _ h1, rfl, hp1, ?_, ?_, ?_⟩
  · intro hacc t2 h2
    exact reuse_Token_valid lib _ t2 _ (Token_Valid_of _ t2 hacc h2)
  · intro hz t3 h3
    obtain ⟨payload3, hp3⟩ := hsign defaultHeader
      { Iss := c.AppID, Exp := (t3.Add (adjustExpire c.Expire)).Unix }
    have h3ok := appSource_Token_of_encode lib
      { appID := c.AppID, expire := c.Expire, pk := pk } t3 payload3 hp3
    refine ⟨_, _, reuse_Token_invalid lib _ t3 _ _ (Token_not_Valid_of _ t3 hz h3) h3ok,
      rfl, hp3, ?_, ?_, ?_⟩
    · intro hlater
      have hlt : (t1.Add (adjustExpire c.Expire)).ns < (t3.Add (adjustExpire c.Expire)).ns := by
        simp only [Time.Add]
        unfold Duration at *
        omega
      refine ⟨?_, hlt⟩
      intro heq
      have hns := congrArg (fun t : Token => t.Expiry.ns) heq
      simp only at hns
      rw [hns] at hlt
      exact lt_irrefl _ hlt
    · intro hsec
      have hsec1 : (t3.Add (adjustExpire c.Expire)).Unix = (t1.Add (adjustExpire c.Expire)).Unix :=
        hsec
      rw [hsec1, hp1] at hp3
      exact (Except.ok.inj hp3).symm
    · intro hinj hsec heq
      have heq1 : payload3 = payload1 := heq
      rw [heq1] at hp3
      have hcs := hinj _ _ payload1 hp3 hp1
      exact hsec (congrArg ClaimSet.Exp hcs)
  · intro ts hts t tok hmem
    exact reuse_Tokens_not_before lib ts _ (by intro t0 h0; cases h0) hts t tok hmem

theorem reuse_until_expiry_witness :
    ∃ src tok1 src1,
      exampleConfig.TokenSource exampleJwt = .returned src ∧
      src.Token exampleJwt ⟨5⟩ = (.ok tok1, src1) ∧
      tok1.Expiry = (Time.mk 5).Add (adjustExpire exampleConfig.Expire) ∧
      exampleJwt.Encode defaultHeader { Iss := exampleConfig.AppID, Exp := tok1.Expiry.Unix }
        exampleKey = .ok tok1.AccessToken ∧
      (tok1.AccessToken ≠ "" → ∀ t2 : Time, t2.ns + 10000000000 ≤ tok1.Expiry.ns →
        src1.Token exampleJwt t2 = (.ok tok1, src1)) ∧
      (tok1.Expiry.IsZero = false → ∀ t3 : Time, tok1.Expiry.ns < t3.ns + 10000000000 →
        ∃ tok3 src3, src1.Token exampleJwt t3 = (.ok tok3, src3) ∧
          tok3.Expiry = t3.Add (adjustExpire exampleConfig.Expire) ∧
          exampleJwt.Encode defaultHeader
            { Iss := exampleConfig.AppID, Exp := tok3.Expiry.Unix } exampleKey
            = .ok tok3.AccessToken ∧
          (5 < t3.ns → tok3 ≠ tok1 ∧ tok1.Expiry.ns < tok3.Expiry.ns) ∧
          (tok3.Expiry.Unix = tok1.Expiry.Unix → tok3.AccessToken = tok1.AccessToken) ∧
          ((∀ cs1 cs2 payload, exampleJwt.Encode defaultHeader cs1 exampleKey = .ok payload →
              exampleJwt.Encode defaultHeader cs2 exampleKey = .ok payload → cs1 = cs2) →
            tok3.Expiry.Unix ≠ tok1.Expiry.Unix → tok3.AccessToken ≠ tok1.AccessToken)) ∧
      (∀ ts : List Time,
        (∀ t ∈ ts, (t.Add (adjustExpire exampleConfig.Expire)).IsZero = false) →
        ∀ t tok, (t, Except.ok tok) ∈ src.Tokens exampleJwt ts →
          tok.Expiry.Before t = false) :=
  reuse_until_expiry exampleJwt exampleConfig exampleKey rfl
    (fun h cs => ⟨h.Algorithm ++ "." ++ cs.Iss, rfl⟩) ⟨5⟩

/-- C4, as stated, fails. With a lifetime of one minute, a first call at instant 0 and a
second call 55 seconds later, within the lifetime of the first token, the second call
issues a new token and the two access tokens differ. With a lifetime of one nanosecond, a
first call at instant 0 and a second call 2 nanoseconds later, after the expiry of the
first token, the new token carries the access token of the first, byte for byte. -/
theorem reuse_fails_near_expiry :
    exampleConfig.TokenSource claimsJwt = .returned { t := none, new := exampleSource } ∧
    reuseTokenSource.Token claimsJwt { t := none, new := exampleSource } ⟨0⟩
      = (.ok ⟨"RS256.1234.60", "bearer", ⟨60000000000⟩⟩,
         { t := some ⟨"RS256.1234.60", "bearer", ⟨60000000000⟩⟩, new := exampleSource }) ∧
    reuseTokenSource.Token claimsJwt
        { t := some ⟨"RS256.1234.60", "bearer", ⟨60000000000⟩⟩, new := exampleSource }
        ⟨55000000000⟩
      = (.ok ⟨"RS256.1234.115", "bearer", ⟨115000000000⟩⟩,
         { t := some ⟨"RS256.1234.115", "bearer", ⟨115000000000⟩⟩, new := exampleSource }) ∧
    (55000000000 : Int) ≤ 60000000000 ∧ "RS256.1234.115" ≠ "RS256.1234.60" ∧
    tinyConfig.TokenSource claimsJwt = .returned { t := none, new := tinySource } ∧
    reuseTokenSource.Token claimsJwt { t := none, new := tinySource } ⟨0⟩
      = (.ok ⟨"RS256.1234.0", "bearer", ⟨1⟩⟩,
         { t := some ⟨"RS256.1234.0", "bearer", ⟨1⟩⟩, new := tinySource }) ∧
    reuseTokenSource.Token claimsJwt
        { t := some ⟨"RS256.1234.0", "bearer", ⟨1⟩⟩, new := tinySource } ⟨2⟩
      = (.ok ⟨"RS256.1234.0", "bearer", ⟨3⟩⟩,
         { t := some ⟨"RS256.1234.0", "bearer", ⟨3⟩⟩, new := tinySource }) ∧
    (1 : Int) < 2 := by
  refine ⟨rfl, rfl, rfl, by decide, by decide, rfl, rfl, rfl, by decide⟩

/-! ## Theorems: construction -/

/-- C5: when the configured key bytes do not parse, `Config.TokenSource`, and with it
`Config.Client` and `Config.NewApp` under any options, panics with the parse error, so no
token source is returned on which `Token()` could be called; when the key parses,
all three return, the token source holding no token yet. -/
theorem bad_key_panics (lib : JwtLib) (c : Config) :
    (∀ err, lib.ParseRSAPrivateKeyFromPEM c.PrivateKey = .error err →
      c.TokenSource lib = .panicked err ∧ c.Client lib = .panicked err ∧
      ∀ (σ : Type) (opts : List (AppOption σ)), c.NewApp lib opts = .panicked err) ∧
    (∀ pk, lib.ParseRSAPrivateKeyFromPEM c.PrivateKey = .ok pk →
      c.TokenSource lib = .returned
        { t := none, new := { appID := c.AppID, expire := c.Expire, pk := pk } } ∧
      (∃ cl, c.Client lib = .returned cl) ∧
      ∀ (σ : Type) (opts : List (AppOption σ)), ∃ a : App σ, c.NewApp lib opts = .returned a) := by
  constructor
  · intro err h
    have hts : c.TokenSource lib = .panicked err := by simp only [Config.TokenSource, h]
    have hcl : c.Client lib = .panicked err := by simp only [Config.Client, hts]
    refine ⟨hts, hcl, ?_⟩
    intro σ opts
    simp only [Config.NewApp, hcl]
  · intro pk h
    have hts : c.TokenSource lib = .returned
        { t := none, new := { appID := c.AppID, expire := c.Expire, pk := pk } } := by
      simp only [Config.TokenSource, h, ReuseTokenSource]
    have hcl : c.Client lib = .returned (oauth2NewClient
        { t := none, new := { appID := c.AppID, expire := c.Expire, pk := pk } }) := by
      simp only [Config.Client, hts]
    refine ⟨hts, ⟨_, hcl⟩, ?_⟩
    intro σ opts
    simp only [Config.NewApp, hcl]
    exact ⟨_, rfl⟩

theorem bad_key_panics_witness :
    (badKeyConfig.TokenSource exampleJwt = .panicked (.New "invalid key") ∧
      badKeyConfig.Client exampleJwt = .panicked (.New "invalid key") ∧
      ∀ (σ : Type) (opts : List (AppOption σ)),
        badKeyConfig.NewApp exampleJwt opts = .panicked (.New "invalid key")) ∧
    (exampleConfig.TokenSource exampleJwt = .returned
        { t := none, new := { appID := "1234", expire := 60000000000, pk := exampleKey } } ∧
      (∃ cl, exampleConfig.Client exampleJwt = .returned cl) ∧
      ∀ (σ : Type) (opts : List (AppOption σ)),
        ∃ a : App σ, exampleConfig.NewApp exampleJwt opts = .returned a) :=
  ⟨(bad_key_panics exampleJwt badKeyConfig).1 _ rfl,
   (bad_key_panics exampleJwt exampleConfig).2 _ rfl⟩

/-! ## Theorems: the installation resolver -/

theorem cacheKey_injective (a b : String) (h : cacheKey a = cacheKey b) : a = b := by
  unfold cacheKey at h
  have h1 := congrArg String.data h
  simp only [String.data_append, List.append_cancel_left_eq] at h1
  exact String.ext h1

theorem mapCache_lawful : mapCache.Lawful := by
  constructor
  · intro s k v
    simp [mapCache, List.lookup]
  · intro s k k1 v hne
    have : (k == k1) = false := by simpa using (Ne.symm hne)
    simp [mapCache, List.lookup, this]

theorem Installation_hit {σ : Type} (lib : GithubLib) (a : App σ) (c : Cache σ)
    (w : World σ) (login : String) (p : Ptr) (hc : a.cache = some c)
    (hget : c.Get w.store (cacheKey login) = .installation (some p)) :
    a.Installation lib w login
      = .returned ((some p, none), w.log (.cacheGet (cacheKey login))) := by
  simp only [App.Installation, App.fromCache, hc, hget]

theorem Installation_store {σ : Type} (lib : GithubLib) (a : App σ) (c : Cache σ)
    (w w1 : World σ) (login : String) (r : Option Ptr × Option GoError)
    (hc : a.cache = some c) (h : a.Installation lib w login = .returned (r, w1)) :
    (w1.store = w.store ∧ ∃ p, c.Get w.store (cacheKey login) = .installation (some p) ∧
        r = (some p, none)) ∨
    (w1.store = w.store ∧ r.1 = none ∧
        ∀ p, c.Get w.store (cacheKey login) ≠ .installation (some p)) ∨
    (w1.store = c.Set w.store (cacheKey login) (.installation (some w.heap.length)) ∧
        r = (some w.heap.length, none) ∧
        ∀ p, c.Get w.store (cacheKey login) ≠ .installation (some p)) := by
  simp only [App.Installation, App.fromCache, hc] at h
  cases hget : c.Get w.store (cacheKey login) with
  | other d => simp [hget] at h
  | installation q =>
    cases q with
    | some p =>
      left
      simp only [hget, Outcome.returned.injEq, Prod.mk.injEq] at h
      refine ⟨?_, p, rfl, h.1.symm⟩
      rw [← h.2]; rfl
    | none =>
      right
      simp only [hget] at h
      cases hf : lib.FindUserInstallation a.Client login with
      | error err =>
        left
        simp only [hf, Outcome.returned.injEq, Prod.mk.injEq] at h
        refine ⟨?_, ?_, by simp⟩
        · rw [← h.2]; rfl
        · rw [← h.1]
      | ok install =>
        simp only [hf] at h
        cases hn : lib.New (Atoi a.cfg.AppID).1 install.GetID a.cfg.PrivateKey with
        | error err =>
          left
          simp only [hn, Outcome.returned.injEq, Prod.mk.injEq] at h
          refine ⟨?_, ?_, by simp⟩
          · rw [← h.2]; rfl
          · rw [← h.1]
        | ok tr =>
          right
          simp only [hn, World.alloc, App.toCache, hc, Outcome.returned.injEq,
            Prod.mk.injEq] at h
          refine ⟨?_, ?_, by simp⟩
          · rw [← h.2]; rfl
          · rw [← h.1]; rfl
  | nil =>
    right
    simp only [hget] at h
    cases hf : lib.FindUserInstallation a.Client login with
    | error err =>
      left
      simp only [hf, Outcome.returned.injEq, Prod.mk.injEq] at h
      refine ⟨?_, ?_, by simp⟩
      · rw [← h.2]; rfl
      · rw [← h.1]
    | ok install =>
      simp only [hf] at h
      cases hn : lib.New (Atoi a.cfg.AppID).1 install.GetID a.cfg.PrivateKey with
      | error err =>
        left
        simp only [hn, Outcome.returned.injEq, Prod.mk.injEq] at h
        refine ⟨?_, ?_, by simp⟩
        · rw [← h.2]; rfl
        · rw [← h.1]
      | ok tr =>
        right
        simp only [hn, World.alloc, App.toCache, hc, Outcome.returned.injEq,
          Prod.mk.injEq] at h
        refine ⟨?_, ?_, by simp⟩
        · rw [← h.2]; rfl
        · rw [← h.1]; rfl

theorem Installation_keeps_entry {σ : Type} (lib : GithubLib) (a : App σ) (c : Cache σ)
    (w w1 : World σ) (login login1 : String) (r : Option Ptr × Option GoError) (p : Ptr)
    (hc : a.cache = some c) (hlaw : c.Lawful)
    (hget : c.Get w.store (cacheKey login) = .installation (some p))
    (h : a.Installation lib w login1 = .returned (r, w1)) :
    c.Get w1.store (cacheKey login) = .installation (some p) := by
  rcases Installation_store lib a c w w1 login1 r hc h with ⟨hs, _⟩ | ⟨hs, _⟩ | ⟨hs, _, hmiss⟩
  · rw [hs]; exact hget
  · rw [hs]; exact hget
  · have hne : cacheKey login1 ≠ cacheKey login := by
      intro heq
      rw [heq] at hmiss
      exact hmiss p hget
    rw [hs, hlaw.2 _ _ _ _ hne]
    exact hget

theorem Installations_keep_entry {σ : Type} (a : App σ) (c : Cache σ) (login : String)
    (p : Ptr) (hc : a.cache = some c) (hlaw : c.Lawful)
    (calls : List (GithubLib × String)) :
    ∀ (w w2 : World σ), c.Get w.store (cacheKey login) = .installation (some p) →
      a.Installations w calls = .returned w2 →
      c.Get w2.store (cacheKey login) = .installation (some p) := by
  induction calls with
  | nil =>
    intro w w2 hget h
    simp only [App.Installations, Outcome.returned.injEq] at h
    rw [← h]; exact hget
  | cons call rest ih =>
    intro w w2 hget h
    obtain ⟨lib, login1⟩ := call
    simp only [App.Installations] at h
    cases hcall : a.Installation lib w login1 with
    | panicked err => simp [hcall] at h
    | returned rw1 =>
      obtain ⟨r, w1⟩ := rw1
      simp only [hcall] at h
      exact ih w1 w2 (Installation_keeps_entry lib a c w w1 login login1 r p hc hlaw hget hcall) h

theorem Installation_success_cached {σ : Type} (lib : GithubLib) (a : App σ) (c : Cache σ)
    (w w1 : World σ) (login : String) (p : Ptr) (e : Option GoError)
    (hc : a.cache = some c) (hlaw : c.Lawful)
    (h : a.Installation lib w login = .returned ((some p, e), w1)) :
    c.Get w1.store (cacheKey login) = .installation (some p) := by
  rcases Installation_store lib a c w w1 login _ hc h with
    ⟨hs, q, hq, hr⟩ | ⟨_, hr, _⟩ | ⟨hs, hr, _⟩
  · simp only [Prod.mk.injEq, Option.some.injEq] at hr
    rw [hs, hq, hr.1]
  · simp at hr
  · simp only [Prod.mk.injEq, Option.some.injEq] at hr
    rw [hs, hlaw.1, hr.1]

/-- C6: for every login and every App with a cache configured: whenever the cache holds an
Installation under "installation/"+login, `App.Installation` returns that very pointer with
a nil error, whatever the libraries would do, and the only call it makes is the cache
`Get` (no lookup, no exchange, no `Set`, no allocation); and when the cache returns what
was last set for a key, after one successful `App.Installation` for the login, and after
any further run of calls, every call for the login returns the pointer of the first. -/
theorem cache_hit_no_network {σ : Type} (a : App σ) (c : Cache σ) (hc : a.cache = some c)
    (login : String) :
    (∀ (lib : GithubLib) (w : World σ) (p : Ptr),
      c.Get w.store (cacheKey login) = .installation (some p) →
      a.Installation lib w login
        = .returned ((some p, none), w.log (.cacheGet (cacheKey login)))) ∧
    (c.Lawful → ∀ (lib0 : GithubLib) (w0 w1 : World σ) (p : Ptr),
      a.Installation lib0 w0 login = .returned ((some p, none), w1) →
      ∀ (calls : List (GithubLib × String)) (w2 : World σ),
        a.Installations w1 calls = .returned w2 →
        ∀ lib : GithubLib, a.Installation lib w2 login
          = .returned ((some p, none), w2.log (.cacheGet (cacheKey login)))) := by
  constructor
  · intro lib w p hget
    exact Installation_hit lib a c w login p hc hget
  · intro hlaw lib0 w0 w1 p h0 calls w2 hrun lib
    have h1 := Installation_success_cached lib0 a c w0 w1 login p none hc hlaw h0
    have h2 := Installations_keep_entry a c login p hc hlaw calls w1 w2 h1 hrun
    exact Installation_hit lib a c w2 login p hc h2

theorem cache_hit_no_network_witness :
    exampleApp.Installation failingGithub
        { store := [("installation/bob", .installation (some 1)),
                    ("installation/alice", .installation (some 0))],
          heap := [{ Client := ⟨.installation ⟨1234, 42, [45, 45]⟩⟩,
                     Github := ⟨⟨.installation ⟨1234, 42, [45, 45]⟩⟩⟩, ID := 42 },
                   { Client := ⟨.installation ⟨1234, 42, [45, 45]⟩⟩,
                     Github := ⟨⟨.installation ⟨1234, 42, [45, 45]⟩⟩⟩, ID := 42 }],
          trace := [.cacheGet "installation/alice", .findUserInstallation "alice",
                    .ghinstallationNew 1234 42 [45, 45],
                    .cacheSet "installation/alice" (.installation (some 0)),
                    .cacheGet "installation/bob", .findUserInstallation "bob",
                    .ghinstallationNew 1234 42 [45, 45],
                    .cacheSet "installation/bob" (.installation (some 1))] } "alice"
      = .returned ((some 0, none), World.log
        { store := [("installation/bob", .installation (some 1)),
                    ("installation/alice", .installation (some 0))],
          heap := [{ Client := ⟨.installation ⟨1234, 42, [45, 45]⟩⟩,
                     Github := ⟨⟨.installation ⟨1234, 42, [45, 45]⟩⟩⟩, ID := 42 },
                   { Client := ⟨.installation ⟨1234, 42, [45, 45]⟩⟩,
                     Github := ⟨⟨.installation ⟨1234, 42, [45, 45]⟩⟩⟩, ID := 42 }],
          trace := [.cacheGet "installation/alice", .findUserInstallation "alice",
                    .ghinstallationNew 1234 42 [45, 45],
                    .cacheSet "installation/alice" (.installation (some 0)),
                    .cacheGet "installation/bob", .findUserInstallation "bob",
                    .ghinstallationNew 1234 42 [45, 45],
                    .cacheSet "installation/bob" (.installation (some 1))] }
        (.cacheGet (cacheKey "alice"))) :=
  (cache_hit_no_network exampleApp mapCache rfl "alice").2 mapCache_lawful
    exampleGithub emptyWorld _ 0 rfl [(exampleGithub, "bob")] _ rfl failingGithub

theorem fromCache_miss_world {σ : Type} (a : App σ) (w w1 : World σ) (login : String)
    (h : a.fromCache w login = .returned (none, w1)) :
    w1.store = w.store ∧ w1.heap = w.heap ∧
      (w1.trace = w.trace ∨ w1.trace = w.trace ++ [.cacheGet (cacheKey login)]) := by
  unfold App.fromCache at h
  split at h
  · simp only [Outcome.returned.injEq, Prod.mk.injEq, true_and] at h
    rw [← h]
    exact ⟨rfl, rfl, Or.inl rfl⟩
  · split at h
    · simp only [Outcome.returned.injEq, Prod.mk.injEq, true_and] at h
      rw [← h]
      exact ⟨rfl, rfl, Or.inr rfl⟩
    · simp only [Outcome.returned.injEq, Prod.mk.injEq] at h
      rw [← h.2]
      exact ⟨rfl, rfl, Or.inr rfl⟩
    · cases h

theorem Installation_lookup_error {σ : Type} (lib : GithubLib) (a : App σ) (w w1 : World σ)
    (login : String) (err : GoError) (hmiss : a.fromCache w login = .returned (none, w1))
    (hf : lib.FindUserInstallation a.Client login = .error err) :
    a.Installation lib w login
      = .returned ((none, some (Wrap err "failed getting user installation")),
          w1.log (.findUserInstallation login)) := by
  simp only [App.Installation, hmiss, hf]

theorem Installation_exchange_error {σ : Type} (lib : GithubLib) (a : App σ) (w w1 : World σ)
    (login : String) (install : GhInstallation) (err : GoError)
    (hmiss : a.fromCache w login = .returned (none, w1))
    (hf : lib.FindUserInstallation a.Client login = .ok install)
    (hn : lib.New (Atoi a.cfg.AppID).1 install.GetID a.cfg.PrivateKey = .error err) :
    a.Installation lib w login
      = .returned ((none, some (Wrap err "get install transport")),
          (w1.log (.findUserInstallation login)).log
            (.ghinstallationNew (Atoi a.cfg.AppID).1 install.GetID a.cfg.PrivateKey)) := by
  simp only [App.Installation, hmiss, hf, hn]

theorem Installation_exchange_ok {σ : Type} (lib : GithubLib) (a : App σ) (w w1 : World σ)
    (login : String) (install : GhInstallation) (tr : Transport)
    (hmiss : a.fromCache w login = .returned (none, w1))
    (hf : lib.FindUserInstallation a.Client login = .ok install)
    (hn : lib.New (Atoi a.cfg.AppID).1 install.GetID a.cfg.PrivateKey = .ok tr) :
    a.Installation lib w login
      = .returned ((some w1.heap.length, none),
          a.toCache
            { (w1.log (.findUserInstallation login)).log
                (.ghinstallationNew (Atoi a.cfg.AppID).1 install.GetID a.cfg.PrivateKey) with
              heap := w1.heap ++ [{ Client := { Transport := .installation tr },
                                    Github := githubNewClient { Transport := .installation tr },
                                    ID := install.GetID }] }
            login w1.heap.length) := by
  simp only [App.Installation, hmiss, hf, hn, World.alloc]
  rfl

/-- C7: for every login for which the cache gives nothing (or no cache is configured): if
the installation lookup fails, `App.Installation` returns no Installation and the lookup's
error wrapped with "failed getting user installation"; if the lookup succeeds and the
transport exchange fails, it returns no Installation and the cause wrapped with
"get install transport"; in both cases the cache is left exactly as it was before the
call, no object is allocated and no `Set` is among the calls made. -/
theorem errors_wrapped_no_cache_write {σ : Type} (lib : GithubLib) (a : App σ)
    (w w1 : World σ) (login : String)
    (hmiss : a.fromCache w login = .returned (none, w1)) :
    (∀ err, lib.FindUserInstallation a.Client login = .error err →
      ∃ w2 evs, a.Installation lib w login
          = .returned ((none, some (Wrap err "failed getting user installation")), w2) ∧
        (Wrap err "failed getting user installation").Error
          = "failed getting user installation: " ++ err.Error ∧
        (Wrap err "failed getting user installation").Cause = err.Cause ∧
        w2.store = w.store ∧ w2.heap = w.heap ∧ w2.trace = w.trace ++ evs ∧
        ∀ k v, Event.cacheSet k v ∉ evs) ∧
    (∀ install err, lib.FindUserInstallation a.Client login = .ok install →
      lib.New (Atoi a.cfg.AppID).1 install.GetID a.cfg.PrivateKey = .error err →
      ∃ w2 evs, a.Installation lib w login
          = .returned ((none, some (Wrap err "get install transport")), w2) ∧
        (Wrap err "get install transport").Error = "get install transport: " ++ err.Error ∧
        (Wrap err "get install transport").Cause = err.Cause ∧
        w2.store = w.store ∧ w2.heap = w.heap ∧ w2.trace = w.trace ++ evs ∧
        ∀ k v, Event.cacheSet k v ∉ evs) := by
  obtain ⟨hs, hh, ht⟩ := fromCache_miss_world a w w1 login hmiss
  constructor
  · intro err hf
    rcases ht with ht | ht
    · refine ⟨_, [.findUserInstallation login],
        Installation_lookup_error lib a w w1 login err hmiss hf, rfl, rfl, hs, hh, ?_, ?_⟩
      · simp only [World.log, ht]
      · intro k v; simp
    · refine ⟨_, [.cacheGet (cacheKey login), .findUserInstallation login],
        Installation_lookup_error lib a w w1 login err hmiss hf, rfl, rfl, hs, hh, ?_, ?_⟩
      · simp [World.log, ht]
      · intro k v; simp
  · intro install err hf hn
    rcases ht with ht | ht
    · refine ⟨_, [.findUserInstallation login,
          .ghinstallationNew (Atoi a.cfg.AppID).1 install.GetID a.cfg.PrivateKey],
        Installation_exchange_error lib a w w1 login install err hmiss hf hn,
        rfl, rfl, hs, hh, ?_, ?_⟩
      · simp [World.log, ht]
      · intro k v; simp
    · refine ⟨_, [.cacheGet (cacheKey login), .findUserInstallation login,
          .ghinstallationNew (Atoi a.cfg.AppID).1 install.GetID a.cfg.PrivateKey],
        Installation_exchange_error lib a w w1 login install err hmiss hf hn,
        rfl, rfl, hs, hh, ?_, ?_⟩
      · simp [World.log, ht]
      · intro k v; simp

theorem errors_wrapped_no_cache_write_witness :
    ∃ w2 evs, exampleApp.Installation exampleGithub emptyWorld "ghost"
        = .returned ((none, some (Wrap (.New "404 Not Found")
            "failed getting user installation")), w2) ∧
      (Wrap (.New "404 Not Found") "failed getting user installation").Error
        = "failed getting user installation: " ++ (GoError.New "404 Not Found").Error ∧
      (Wrap (.New "404 Not Found") "failed getting user installation").Cause
        = (GoError.New "404 Not Found").Cause ∧
      w2.store = emptyWorld.store ∧ w2.heap = emptyWorld.heap ∧
      w2.trace = emptyWorld.trace ++ evs ∧ ∀ k v, Event.cacheSet k v ∉ evs :=
  (errors_wrapped_no_cache_write exampleGithub exampleApp emptyWorld
    (emptyWorld.log (.cacheGet "installation/ghost")) "ghost" rfl).1 (.New "404 Not Found") rfl

/-! ## Theorems: the application identifier -/

theorem digit_le (c : Char) (h : isDigit c = true) : c.toNat - '0'.toNat ≤ 9 := by
  simp only [isDigit, decide_eq_true_eq] at h
  have h2 : c.toNat ≤ '9'.toNat := h.2
  have h9 : '9'.toNat = 57 := by decide
  have h0 : '0'.toNat = 48 := by decide
  omega

theorem foldl_digits_ge (ds : List Char) :
    ∀ n : Nat, n ≤ ds.foldl (fun n c => n * 10 + (c.toNat - '0'.toNat)) n := by
  induction ds with
  | nil => intro n; exact Nat.le_refl n
  | cons c rest ih =>
    intro n
    simp only [List.foldl_cons]
    have := ih (n * 10 + (c.toNat - '0'.toNat))
    omega

theorem foldl_digits_lt (ds : List Char) :
    ∀ n : Nat, ds.all isDigit = true →
      ds.foldl (fun n c => n * 10 + (c.toNat - '0'.toNat)) n < (n + 1) * 10 ^ ds.length := by
  induction ds with
  | nil => intro n _; simp
  | cons c rest ih =>
    intro n h
    simp only [List.all_cons, Bool.and_eq_true] at h
    simp only [List.foldl_cons, List.length_cons]
    have h1 := ih (n * 10 + (c.toNat - '0'.toNat)) h.2
    have h2 := digit_le c h.1
    have h3 : (n * 10 + (c.toNat - '0'.toNat) + 1) * 10 ^ rest.length
        ≤ (n + 1) * 10 ^ (rest.length + 1) := by
      rw [pow_succ]
      have : n * 10 + (c.toNat - '0'.toNat) + 1 ≤ (n + 1) * 10 := by omega
      calc (n * 10 + (c.toNat - '0'.toNat) + 1) * 10 ^ rest.length
          ≤ ((n + 1) * 10) * 10 ^ rest.length := Nat.mul_le_mul_right _ this
        _ = (n + 1) * (10 ^ rest.length * 10) := by ring
    omega

theorem parseUintLoop_spec (cs : List Char) :
    ∀ n : Nat, n < 2 ^ 64 →
      parseUintLoop cs n =
        if 2 ^ 64 ≤ (cs.takeWhile isDigit).foldl (fun n c => n * 10 + (c.toNat - '0'.toNat)) n
        then (maxUint64, some ErrRange)
        else if cs.all isDigit = false then (0, some ErrSyntax)
        else (cs.foldl (fun n c => n * 10 + (c.toNat - '0'.toNat)) n, none) := by
  induction cs with
  | nil =>
    intro n hn
    simp only [parseUintLoop, List.takeWhile_nil, List.foldl_nil, List.all_nil]
    rw [if_neg (by omega)]
    simp
  | cons c rest ih =>
    intro n hn
    by_cases hc : isDigit c = true
    · have hd := digit_le c hc
      have hge := foldl_digits_ge (rest.takeWhile isDigit) (n * 10 + (c.toNat - '0'.toNat))
      simp only [parseUintLoop, hc, List.takeWhile_cons, if_true, List.foldl_cons,
        List.all_cons, Bool.true_and, Bool.true_eq_false, if_false]
      by_cases hcut : n ≥ maxUint64 / 10 + 1
      · have hcut2 : 1844674407370955162 ≤ n := by
          simpa [maxUint64] using hcut
        rw [if_pos hcut, if_pos (by omega)]
      · have hcut2 : n < 1844674407370955162 := by
          simpa [maxUint64] using hcut
        rw [if_neg hcut]
        have h10 : n * 10 % 2 ^ 64 = n * 10 := Nat.mod_eq_of_lt (by omega)
        simp only [h10]
        by_cases hov : n * 10 + (c.toNat - '0'.toNat) < 2 ^ 64
        · have h1 : (n * 10 + (c.toNat - '0'.toNat)) % 2 ^ 64
              = n * 10 + (c.toNat - '0'.toNat) := Nat.mod_eq_of_lt hov
          simp only [h1]
          rw [if_neg (by simp only [maxUint64]; omega)]
          exact ih _ hov
        · have h1 : (n * 10 + (c.toNat - '0'.toNat)) % 2 ^ 64
              = n * 10 + (c.toNat - '0'.toNat) - 2 ^ 64 := by
            rw [Nat.mod_eq_sub_mod (by omega)]
            exact Nat.mod_eq_of_lt (by omega)
          simp only [h1]
          rw [if_pos (Or.inl (by omega)), if_pos (by omega)]
    · have hc2 : isDigit c = false := by simpa using hc
      simp only [parseUintLoop, hc2, List.takeWhile_cons, if_true, List.foldl_nil,
        List.all_cons, Bool.false_and, Bool.false_eq_true, if_false]
      rw [if_neg (by omega)]

theorem atoiLoop_spec (cs : List Char) :
    ∀ n : Nat, atoiLoop cs n =
      if cs.all isDigit = true
      then some (cs.foldl (fun n c => n * 10 + (c.toNat - '0'.toNat)) n) else none := by
  induction cs with
  | nil => intro n; simp [atoiLoop]
  | cons c rest ih =>
    intro n
    by_cases hc : isDigit c = true
    · simp only [atoiLoop, hc, Bool.true_eq_false, if_false, List.all_cons, Bool.true_and,
        List.foldl_cons]
      exact ih _
    · have hc2 : isDigit c = false := by simpa using hc
      simp [atoiLoop, hc2]


theorem utf8ByteSize_go_ge (cs : List Char) : cs.length ≤ String.utf8ByteSize.go cs := by
  induction cs with
  | nil => simp [String.utf8ByteSize.go]
  | cons c rest ih =>
    have := Char.utf8Size_pos c
    simp only [String.utf8ByteSize.go, List.length_cons]
    omega

theorem length_le_utf8ByteSize (s : String) : s.toList.length ≤ s.utf8ByteSize := by
  cases s with
  | mk data => exact utf8ByteSize_go_ge data

theorem unsigned_length_le (cs : List Char) : (unsigned cs).length ≤ cs.length := by
  unfold unsigned
  split <;> simp

theorem takeWhile_all_digits (cs : List Char) : (cs.takeWhile isDigit).all isDigit = true := by
  rw [List.all_eq_true]
  intro c hc
  exact List.mem_takeWhile_imp hc

theorem takeWhile_of_all (cs : List Char) (h : cs.all isDigit = true) :
    cs.takeWhile isDigit = cs := by
  rw [List.takeWhile_eq_self_iff]
  intro c hc
  exact (List.all_eq_true.mp h) c hc

theorem clamp_eq (neg : Bool) (un : Nat) :
    (if neg = false ∧ un ≥ 2 ^ 63 then ((2 : Int) ^ 63 - 1, some ErrRange)
      else if neg = true ∧ un > 2 ^ 63 then (-(2 : Int) ^ 63, some ErrRange)
      else (if neg = true then -(un : Int) else (un : Int), none))
    = (if (if neg = true then -(un : Int) else (un : Int)) < -(2 : Int) ^ 63
        then (-(2 : Int) ^ 63, some ErrRange)
       else if (2 : Int) ^ 63 ≤ (if neg = true then -(un : Int) else (un : Int))
        then ((2 : Int) ^ 63 - 1, some ErrRange)
       else (if neg = true then -(un : Int) else (un : Int), none)) := by
  cases neg with
  | true =>
    simp only [Bool.true_eq_false, false_and, if_false, true_and, if_true]
    by_cases h : un > 2 ^ 63
    · rw [if_pos h, if_pos (by omega)]
    · rw [if_neg h, if_neg (by omega), if_neg (by omega)]
  | false =>
    simp only [true_and, Bool.false_eq_true, false_and, if_false]
    by_cases h : un ≥ 2 ^ 63
    · rw [if_pos h, if_neg (by omega), if_pos (by omega)]
    · rw [if_neg h, if_neg (by omega), if_neg (by omega)]

theorem atoi_fast_spec (cs : List Char) (neg : Bool) (hlen : cs.length ≤ 18) :
    (if cs = [] then ((0 : Int), some ErrSyntax)
      else
        match atoiLoop cs 0 with
        | none => (0, some ErrSyntax)
        | some n => (if neg = true then -(n : Int) else (n : Int), none))
    = match (if cs ≠ [] ∧ cs.all isDigit = true
          then some (if neg = true then -(digitsValue cs : Int) else (digitsValue cs : Int))
          else none) with
      | none => (0, some ErrSyntax)
      | some v =>
        if v < -(2 : Int) ^ 63 then (-(2 : Int) ^ 63, some ErrRange)
        else if (2 : Int) ^ 63 ≤ v then ((2 : Int) ^ 63 - 1, some ErrRange)
        else (v, none) := by
  by_cases hbody : cs = []
  · rw [if_pos hbody, if_neg (fun h => h.1 hbody)]
  · rw [if_neg hbody, atoiLoop_spec]
    by_cases hall : cs.all isDigit = true
    · have hv : digitsValue cs < 10 ^ 18 := by
        have h1 := foldl_digits_lt cs 0 hall
        have h3 : 10 ^ cs.length ≤ 10 ^ 18 := Nat.pow_le_pow_right (by decide) hlen
        simp only [Nat.zero_add, Nat.one_mul] at h1
        exact lt_of_lt_of_le h1 h3
      have hfold : List.foldl (fun n c => n * 10 + (c.toNat - '0'.toNat)) 0 cs
          = digitsValue cs := rfl
      rw [if_pos hall, if_pos ⟨hbody, hall⟩, hfold]
      cases neg with
      | true =>
        simp only [if_true]
        rw [if_neg (by omega), if_neg (by omega)]
      | false =>
        simp only [Bool.false_eq_true, if_false]
        rw [if_neg (by omega), if_neg (by omega)]
    · rw [if_neg hall, if_neg (fun h => hall h.2)]

theorem parseInt_slow_spec (cs : List Char) (neg : Bool) :
    (if (ParseUint cs).2 ≠ none ∧ (ParseUint cs).2 ≠ some ErrRange
        then ((0 : Int), (ParseUint cs).2)
      else if neg = false ∧ (ParseUint cs).1 ≥ 2 ^ 63 then ((2 : Int) ^ 63 - 1, some ErrRange)
      else if neg = true ∧ (ParseUint cs).1 > 2 ^ 63 then (-(2 : Int) ^ 63, some ErrRange)
      else (if neg = true then -((ParseUint cs).1 : Int) else ((ParseUint cs).1 : Int), none))
    = if 2 ^ 64 ≤ digitsValue (cs.takeWhile isDigit) then
        (if neg = true then -(2 : Int) ^ 63 else (2 : Int) ^ 63 - 1, some ErrRange)
      else
        match (if cs ≠ [] ∧ cs.all isDigit = true
            then some (if neg = true then -(digitsValue cs : Int) else (digitsValue cs : Int))
            else none) with
        | none => (0, some ErrSyntax)
        | some v =>
          if v < -(2 : Int) ^ 63 then (-(2 : Int) ^ 63, some ErrRange)
          else if (2 : Int) ^ 63 ≤ v then ((2 : Int) ^ 63 - 1, some ErrRange)
          else (v, none) := by
  have hne : some ErrSyntax ≠ some ErrRange := by decide
  have hne0 : some ErrSyntax ≠ (none : Option GoError) := by decide
  by_cases hbody : cs = []
  · subst hbody
    have hp : ParseUint [] = (0, some ErrSyntax) := rfl
    rw [hp, if_pos ⟨hne0, hne⟩]
    simp [digitsValue]
  · have hp : ParseUint cs =
        if 2 ^ 64 ≤ digitsValue (cs.takeWhile isDigit) then (maxUint64, some ErrRange)
        else if cs.all isDigit = false then (0, some ErrSyntax)
        else (digitsValue cs, none) := by
      simp only [ParseUint, if_neg hbody]
      exact parseUintLoop_spec cs 0 (by decide)
    by_cases hov : 2 ^ 64 ≤ digitsValue (cs.takeWhile isDigit)
    · rw [if_pos hov] at hp
      rw [hp, if_pos hov]
      cases neg with
      | true => simp [maxUint64]
      | false => simp [maxUint64]
    · rw [if_neg hov] at hp
      rw [if_neg hov]
      by_cases hall : cs.all isDigit = true
      · have hall2 : ¬ (cs.all isDigit = false) := by rw [hall]; decide
        rw [if_neg hall2] at hp
        have hdec : (if cs ≠ [] ∧ cs.all isDigit = true
            then some (if neg = true then -(digitsValue cs : Int) else (digitsValue cs : Int))
            else none)
            = some (if neg = true then -(digitsValue cs : Int) else (digitsValue cs : Int)) :=
          if_pos ⟨hbody, hall⟩
        rw [hp, hdec, if_neg (fun h => h.1 rfl)]
        exact clamp_eq neg (digitsValue cs)
      · have hall2 : cs.all isDigit = false := by
          cases h : cs.all isDigit with
          | true => exact absurd h hall
          | false => rfl
        rw [if_pos hall2] at hp
        rw [hp, if_pos ⟨hne0, hne⟩, if_neg (fun h => hall h.2)]

theorem Atoi_spec (s : String) :
    Atoi s =
      if 2 ^ 64 ≤ digitsValue ((unsigned s.toList).takeWhile isDigit) then
        (if negative s.toList = true then -(2 : Int) ^ 63 else (2 : Int) ^ 63 - 1, some ErrRange)
      else
        match decimalValue s with
        | none => (0, some ErrSyntax)
        | some v =>
          if v < -(2 : Int) ^ 63 then (-(2 : Int) ^ 63, some ErrRange)
          else if (2 : Int) ^ 63 ≤ v then ((2 : Int) ^ 63 - 1, some ErrRange)
          else (v, none) := by
  unfold Atoi decimalValue
  by_cases hfast : 0 < s.utf8ByteSize ∧ s.utf8ByteSize < 19
  · have hlen : (unsigned s.toList).length ≤ 18 := by
      have h1 := unsigned_length_le s.toList
      have h2 := length_le_utf8ByteSize s
      omega
    have hds : digitsValue ((unsigned s.toList).takeWhile isDigit) < 10 ^ 18 := by
      have h1 := foldl_digits_lt ((unsigned s.toList).takeWhile isDigit) 0
        (takeWhile_all_digits _)
      have h2 : ((unsigned s.toList).takeWhile isDigit).length ≤ 18 :=
        le_trans (List.takeWhile_sublist _).length_le hlen
      have h3 : 10 ^ ((unsigned s.toList).takeWhile isDigit).length ≤ 10 ^ 18 :=
        Nat.pow_le_pow_right (by decide) h2
      simp only [Nat.zero_add, Nat.one_mul] at h1
      exact lt_of_lt_of_le h1 h3
    have hnov : ¬ (2 ^ 64 ≤ digitsValue ((unsigned s.toList).takeWhile isDigit)) := by omega
    rw [if_pos hfast, if_neg hnov]
    exact atoi_fast_spec (unsigned s.toList) (negative s.toList) hlen
  · rw [if_neg hfast]
    unfold ParseInt
    by_cases hs : s.toList = []
    · rw [if_pos hs, hs]
      simp [unsigned, digitsValue]
    · rw [if_neg hs]
      exact parseInt_slow_spec (unsigned s.toList) (negative s.toList)

theorem Atoi_examples :
    Atoi "1234" = (1234, none) ∧
    Atoi "-12" = (-12, none) ∧
    Atoi "+12" = (12, none) ∧
    Atoi "" = (0, some ErrSyntax) ∧
    Atoi "-" = (0, some ErrSyntax) ∧
    Atoi "my-app" = (0, some ErrSyntax) ∧
    Atoi "1_000" = (0, some ErrSyntax) ∧
    Atoi "9223372036854775807" = (9223372036854775807, none) ∧
    Atoi "9223372036854775808" = (9223372036854775807, some ErrRange) ∧
    Atoi "-9223372036854775808" = (-9223372036854775808, none) ∧
    Atoi "-9223372036854775809" = (-9223372036854775808, some ErrRange) ∧
    Atoi "18446744073709551615x" = (0, some ErrSyntax) ∧
    Atoi "18446744073709551616x" = (9223372036854775807, some ErrRange) ∧
    Atoi "99999999999999999999x" = (9223372036854775807, some ErrRange) ∧
    Atoi "-99999999999999999999x" = (-9223372036854775808, some ErrRange) ∧
    Atoi "9999999999999999999x" = (0, some ErrSyntax) := by
  decide

theorem decimalValue_takeWhile (s : String) (v : Int) (h : decimalValue s = some v) :
    (unsigned s.toList).all isDigit = true ∧
    v = (if negative s.toList = true then -(digitsValue (unsigned s.toList) : Int)
         else (digitsValue (unsigned s.toList) : Int)) := by
  unfold decimalValue at h
  split at h
  · next hc => exact ⟨hc.2, (Option.some.inj h).symm⟩
  · cases h

theorem Atoi_value (s : String) :
    match decimalValue s with
    | some v => (Atoi s).1 =
        (if v < -(2 : Int) ^ 63 then -(2 : Int) ^ 63
         else if (2 : Int) ^ 63 ≤ v then (2 : Int) ^ 63 - 1 else v)
    | none => (Atoi s).1 =
        (if 2 ^ 64 ≤ digitsValue ((unsigned s.toList).takeWhile isDigit)
         then (if negative s.toList = true then -(2 : Int) ^ 63 else (2 : Int) ^ 63 - 1)
         else 0) := by
  have h := Atoi_spec s
  cases hd : decimalValue s with
  | none =>
    simp only [hd] at h
    simp only [h]
    split <;> rfl
  | some v =>
    obtain ⟨hall, hv⟩ := decimalValue_takeWhile s v hd
    simp only [hd] at h
    simp only [h]
    rw [takeWhile_of_all _ hall]
    by_cases hov : 2 ^ 64 ≤ digitsValue (unsigned s.toList)
    · rw [if_pos hov]
      cases hneg : negative s.toList with
      | true =>
        rw [hneg] at hv
        simp only [if_true] at hv
        simp only [if_true]
        rw [if_pos (by omega)]
      | false =>
        rw [hneg] at hv
        simp only [Bool.false_eq_true, if_false] at hv
        simp only [Bool.false_eq_true, if_false]
        rw [if_neg (by omega), if_pos (by omega)]
    · rw [if_neg hov]
      split
      · rfl
      · split <;> rfl

theorem NewApp_with_caches {σ : Type} (caches : List (Option (Cache σ))) :
    ∀ a : App σ, ((caches.map OptWithCache).foldl (fun a opt => opt a) a).cfg = a.cfg ∧
      ((caches.map OptWithCache).foldl (fun a opt => opt a) a).Client = a.Client := by
  induction caches with
  | nil => intro a; exact ⟨rfl, rfl⟩
  | cons c rest ih =>
    intro a
    simp only [List.map_cons, List.foldl_cons]
    exact ih (OptWithCache c a)

/-- C10, as amended: on a cache miss with a successful lookup, `App.Installation` calls the
transport exchange exactly once, with the value `strconv.Atoi` gives for `Config.AppID`,
and no error of the conversion is ever returned. That value is the integer `AppID`
denotes when `AppID` is an optionally signed string of decimal digits within the range of
a 64-bit `int`, and the nearest bound of that range when such a string is out of range.
For any other string it is the bound on the side of the sign when, after an optional sign,
the string starts with decimal digits that denote 2^64 or more, and 0 otherwise. An App
built by `Config.NewApp` with cache options keeps the configuration, and its token source
signs with issuer equal to the `AppID` string. -/
theorem appID_handed_to_exchange {σ : Type} (lib : GithubLib) (a : App σ) (w w1 : World σ)
    (login : String) (install : GhInstallation)
    (hmiss : a.fromCache w login = .returned (none, w1))
    (hf : lib.FindUserInstallation a.Client login = .ok install) :
    (∃ r w2 evs, a.Installation lib w login = .returned (r, w2) ∧
      w2.trace = w1.trace ++ [.findUserInstallation login,
        .ghinstallationNew (Atoi a.cfg.AppID).1 install.GetID a.cfg.PrivateKey] ++ evs ∧
      (∀ e ∈ evs, ∃ k v, e = Event.cacheSet k v) ∧
      (r.2 = none ∨ ∃ err,
        lib.New (Atoi a.cfg.AppID).1 install.GetID a.cfg.PrivateKey = .error err ∧
        r.2 = some (Wrap err "get install transport"))) ∧
    (match decimalValue a.cfg.AppID with
      | some v => (Atoi a.cfg.AppID).1 =
          (if v < -(2 : Int) ^ 63 then -(2 : Int) ^ 63
           else if (2 : Int) ^ 63 ≤ v then (2 : Int) ^ 63 - 1 else v)
      | none => (Atoi a.cfg.AppID).1 =
          (if 2 ^ 64 ≤ digitsValue ((unsigned a.cfg.AppID.toList).takeWhile isDigit)
           then (if negative a.cfg.AppID.toList = true
                 then -(2 : Int) ^ 63 else (2 : Int) ^ 63 - 1)
           else 0)) ∧
    (∀ (jwt : JwtLib) (c : Config) (caches : List (Option (Cache σ))),
      c.NewApp jwt (caches.map OptWithCache) = .returned a →
      a.cfg = c ∧ ∃ pk,
        a.Client = githubNewClient (oauth2NewClient
          { t := none, new := { appID := c.AppID, expire := c.Expire, pk := pk } }) ∧
        ∀ now : Time,
          appSource.Token jwt { appID := c.AppID, expire := c.Expire, pk := pk } now =
            match jwt.Encode defaultHeader
              { Iss := c.AppID, Exp := (now.Add (adjustExpire c.Expire)).Unix } pk with
            | .error err => .error err
            | .ok payload => .ok { TokenType := "bearer", AccessToken := payload,
                                   Expiry := now.Add (adjustExpire c.Expire) }) := by
  refine ⟨?_, ?_, ?_⟩
  · cases hn : lib.New (Atoi a.cfg.AppID).1 install.GetID a.cfg.PrivateKey with
    | error err =>
      refine ⟨_, _, [], Installation_exchange_error lib a w w1 login install err hmiss hf hn,
        ?_, ?_, Or.inr ⟨err, rfl, rfl⟩⟩
      · simp [World.log]
      · intro e he; cases he
    | ok tr =>
      cases hc : a.cache with
      | none =>
        refine ⟨_, _, [], Installation_exchange_ok lib a w w1 login install tr hmiss hf hn,
          ?_, ?_, Or.inl rfl⟩
        · simp [App.toCache, hc, World.log]
        · intro e he; cases he
      | some c =>
        refine ⟨_, _, [.cacheSet (cacheKey login) (.installation (some w1.heap.length))],
          Installation_exchange_ok lib a w w1 login install tr hmiss hf hn,
          ?_, ?_, Or.inl rfl⟩
        · simp [App.toCache, hc, World.log]
        · intro e he
          simp only [List.mem_singleton] at he
          exact ⟨_, _, he⟩
  · exact Atoi_value a.cfg.AppID
  · intro jwt c caches hnew
    unfold Config.NewApp Config.Client Config.TokenSource at hnew
    cases hp : jwt.ParseRSAPrivateKeyFromPEM c.PrivateKey with
    | error err => simp [hp] at hnew
    | ok pk =>
      simp only [hp, ReuseTokenSource, Outcome.returned.injEq] at hnew
      have hk := NewApp_with_caches caches
        ({ Client := githubNewClient (oauth2NewClient
            { t := none, new := { appID := c.AppID, expire := c.Expire, pk := pk } }),
           cfg := c, cache := none } : App σ)
      rw [hnew] at hk
      exact ⟨hk.1, pk, hk.2, fun now => rfl⟩

theorem appID_handed_to_exchange_witness :
    ∃ r w2 evs, namedApp.Installation exampleGithub emptyWorld "alice" = .returned (r, w2) ∧
      w2.trace = [Event.cacheGet "installation/alice"] ++ [.findUserInstallation "alice",
        .ghinstallationNew (Atoi namedApp.cfg.AppID).1
          (GhInstallation.mk (some 42)).GetID namedApp.cfg.PrivateKey] ++ evs ∧
      (∀ e ∈ evs, ∃ k v, e = Event.cacheSet k v) ∧
      (r.2 = none ∨ ∃ err,
        exampleGithub.New (Atoi namedApp.cfg.AppID).1 (GhInstallation.mk (some 42)).GetID
          namedApp.cfg.PrivateKey = .error err ∧
        r.2 = some (Wrap err "get install transport")) :=
  (appID_handed_to_exchange exampleGithub namedApp emptyWorld
    (emptyWorld.log (.cacheGet "installation/alice")) "alice" { ID := some 42 } rfl rfl).1

/-- C10, as stated, fails for the identifier "9223372036854775808": it is a string of
decimal digits denoting 9223372036854775808, the conversion reports a range error, and
the identifier handed to the transport exchange is 9223372036854775807, which is neither
the integer the string denotes nor 0. -/
theorem appID_out_of_range :
    outOfRangeApp.Installation exampleGithub emptyWorld "alice"
      = .returned ((some 0, none),
          { store := [("installation/alice", .installation (some 0))],
            heap := [{ Client := ⟨.installation ⟨9223372036854775807, 42, [45, 45]⟩⟩,
                       Github := ⟨⟨.installation ⟨9223372036854775807, 42, [45, 45]⟩⟩⟩,
                       ID := 42 }],
            trace := [.cacheGet "installation/alice", .findUserInstallation "alice",
                      .ghinstallationNew 9223372036854775807 42 [45, 45],
                      .cacheSet "installation/alice" (.installation (some 0))] }) ∧
    decimalValue outOfRangeApp.cfg.AppID = some 9223372036854775808 ∧
    Atoi outOfRangeApp.cfg.AppID = (9223372036854775807, some ErrRange) ∧
    (9223372036854775807 : Int) ≠ 9223372036854775808 ∧ (9223372036854775807 : Int) ≠ 0 := by
  refine ⟨rfl, by decide, by decide, by decide, by decide⟩

/-! ## Theorems: the cache adapter -/

/-- C8, as amended: for the adapter over any backing store, `Set` is the store's
`SetDefault`; `Get(k)` returns `v` in every state in which the store still finds `v`
under `k`, in particular right after `Set(k, v)` if the store finds what was just set;
`Get(k)` returns nil for every key the store does not find; a result that is not nil
means the store finds the key with that very value; and a nil result means the key is
absent or the value stored under it is itself nil. -/
theorem adapter_get_set {σ : Type} (b : Store σ) (k : String) :
    (∀ s v, cache.Set b s k v = b.SetDefault s k v) ∧
    (∀ s1 v, b.Get s1 k = (v, true) → cache.Get b s1 k = v) ∧
    (∀ s v, b.Get (b.SetDefault s k v) k = (v, true) →
      cache.Get b (cache.Set b s k v) k = v) ∧
    (∀ s1, (b.Get s1 k).2 = false → cache.Get b s1 k = .nil) ∧
    (∀ s1, cache.Get b s1 k ≠ .nil → b.Get s1 k = (cache.Get b s1 k, true)) ∧
    (∀ s1, cache.Get b s1 k = .nil → (b.Get s1 k).2 = false ∨ b.Get s1 k = (.nil, true)) := by
  have hget : ∀ s1 v, b.Get s1 k = (v, true) → cache.Get b s1 k = v := by
    intro s1 v h
    simp only [cache.Get, h]
  have habs : ∀ s1, (b.Get s1 k).2 = false → cache.Get b s1 k = .nil := by
    intro s1 h
    unfold cache.Get
    split
    · rfl
    · next v heq => rw [heq] at h; cases h
  refine ⟨fun s v => rfl, hget, fun s v h => hget _ v h, habs, ?_, ?_⟩
  · intro s1 hne
    cases hb : b.Get s1 k with
    | mk v ok =>
      cases ok with
      | false => exact absurd (habs s1 (by rw [hb])) hne
      | true => rw [hget s1 v hb]
  · intro s1 hnil
    cases hb : b.Get s1 k with
    | mk v ok =>
      cases ok with
      | false => exact Or.inl rfl
      | true =>
        right
        rw [hget s1 v hb] at hnil
        rw [hnil]

theorem adapter_get_set_witness :
    cache.Get expiringStore
        (cache.Set expiringStore emptyStore "installation/alice" (.installation (some 0)))
        "installation/alice"
      = .installation (some 0) :=
  (adapter_get_set expiringStore "installation/alice").2.2.1 emptyStore
    (.installation (some 0)) rfl

/-- C8, as stated, fails for the value nil: after `Set("k", nil)` the backing store finds
the key "k" (with the nil object), yet `Get("k")` returns nil, so a nil result does not
mean that the key is absent. -/
theorem nil_result_for_present_key :
    cache.Get expiringStore (cache.Set expiringStore emptyStore "k" .nil) "k" = .nil ∧
    expiringStore.Get (cache.Set expiringStore emptyStore "k" .nil) "k" = (.nil, true) := by
  constructor <;> rfl

/-! ## Theorems: concurrent calls -/

theorem lastSet_append (key : String) (trace : List Event) (e : Event) :
    lastSet key (trace ++ [e]) =
      match e with
      | .cacheSet k v => if k = key then some v else lastSet key trace
      | _ => lastSet key trace := by
  simp only [lastSet, List.foldl_append, List.foldl_cons, List.foldl_nil]

theorem lastSet_isSome_append (key : String) (trace : List Event) (e : Event)
    (h : (lastSet key trace).isSome = true) : (lastSet key (trace ++ [e])).isSome = true := by
  rw [lastSet_append]
  cases e with
  | cacheSet k v =>
    simp only
    split
    · rfl
    · exact h
  | cacheGet k => exact h
  | findUserInstallation l => exact h
  | ghinstallationNew x y z => exact h

theorem Populated_append {σ : Type} (lib : GithubLib) (a : App σ) (login : String)
    (heap more : List Installation) (p : Ptr) (h : Populated lib a login heap p) :
    Populated lib a login (heap ++ more) p := by
  obtain ⟨install, tr, hf, hn, hp⟩ := h
  refine ⟨install, tr, hf, hn, ?_⟩
  have hlt : p < heap.length := by
    by_contra hge
    have hle : heap.length ≤ p := Nat.le_of_not_lt hge
    rw [List.getElem?_eq_none hle] at hp
    cases hp
  rw [List.getElem?_append_left hlt]
  exact hp

theorem Call_Ok_mono {σ : Type} (lib : GithubLib) (a : App σ) (login : String)
    (w w1 : World σ) (t : Call) (more : List Installation)
    (hheap : w1.heap = w.heap ++ more)
    (hset : (lastSet (cacheKey login) w.trace).isSome = true →
      (lastSet (cacheKey login) w1.trace).isSome = true)
    (h : t.Ok lib a login w) : t.Ok lib a login w1 := by
  cases t with
  | start => trivial
  | lookup => trivial
  | exchange install => exact h
  | store inst =>
    simp only [Call.Ok] at h ⊢
    rw [hheap]
    exact Populated_append lib a login _ _ _ h
  | done r =>
    simp only [Call.Ok] at h ⊢
    obtain ⟨p, hr, hp, hs⟩ := h
    refine ⟨p, hr, ?_, hset hs⟩
    rw [hheap]
    exact Populated_append lib a login _ _ _ hp
  | panicked err => exact h

theorem CacheOk_log {σ : Type} (lib : GithubLib) (a : App σ) (c : Cache σ) (login : String)
    (w : World σ) (e : Event) (he : ∀ k v, e ≠ .cacheSet k v)
    (h : CacheOk lib a c login w) : CacheOk lib a c login (w.log e) := by
  have hl : lastSet (cacheKey login) (w.log e).trace = lastSet (cacheKey login) w.trace := by
    cases e with
    | cacheSet k v => exact absurd rfl (he k v)
    | cacheGet k => simp only [World.log, lastSet_append]
    | findUserInstallation l => simp only [World.log, lastSet_append]
    | ghinstallationNew x y z => simp only [World.log, lastSet_append]
  unfold CacheOk
  rw [hl]
  exact h

theorem CacheOk_heap {σ : Type} (lib : GithubLib) (a : App σ) (c : Cache σ) (login : String)
    (w : World σ) (more : List Installation)
    (h : CacheOk lib a c login w) :
    CacheOk lib a c login { w with heap := w.heap ++ more } := by
  refine ⟨h.1, ?_⟩
  intro v hv
  obtain ⟨p, hp, hpop⟩ := h.2 v hv
  exact ⟨p, hp, Populated_append lib a login _ _ _ hpop⟩

theorem step_preserves {σ : Type} (lib : GithubLib) (a : App σ) (c : Cache σ)
    (login : String) (hc : a.cache = some c) (hlaw : c.Lawful)
    (hfind : ∀ cl l, ∃ install, lib.FindUserInstallation cl l = .ok install)
    (hnew : ∀ x y z, ∃ tr, lib.New x y z = .ok tr)
    (t : Call) (w : World σ) (hcache : CacheOk lib a c login w)
    (hok : t.Ok lib a login w) :
    CacheOk lib a c login (a.step lib login t w).2 ∧
    (a.step lib login t w).1.Ok lib a login (a.step lib login t w).2 ∧
    (∃ more, (a.step lib login t w).2.heap = w.heap ++ more) ∧
    ((lastSet (cacheKey login) w.trace).isSome = true →
      (lastSet (cacheKey login) (a.step lib login t w).2.trace).isSome = true) := by
  cases t with
  | start =>
    have hlog : CacheOk lib a c login (w.log (.cacheGet (cacheKey login))) :=
      CacheOk_log lib a c login w _ (by intro k v h; cases h) hcache
    have hsome : (lastSet (cacheKey login) w.trace).isSome = true →
        (lastSet (cacheKey login) (w.log (.cacheGet (cacheKey login))).trace).isSome = true :=
      fun h => lastSet_isSome_append _ _ _ h
    cases hl : lastSet (cacheKey login) w.trace with
    | none =>
      have hget : c.Get w.store (cacheKey login) = .nil := by
        rw [hcache.1, hl]; rfl
      simp only [App.step, App.fromCache, hc, hget]
      exact ⟨hlog, trivial, ⟨[], by simp [World.log]⟩, by rw [← hl]; exact hsome⟩
    | some v =>
      obtain ⟨p, hv, hpop⟩ := hcache.2 v hl
      have hget : c.Get w.store (cacheKey login) = .installation (some p) := by
        rw [hcache.1, hl, hv]; rfl
      simp only [App.step, App.fromCache, hc, hget]
      refine ⟨hlog, ⟨p, rfl, hpop, ?_⟩, ⟨[], by simp [World.log]⟩, by rw [← hl]; exact hsome⟩
      apply hsome
      rw [hl]; rfl
  | lookup =>
    obtain ⟨install, hf⟩ := hfind a.Client login
    simp only [App.step, hf]
    exact ⟨CacheOk_log lib a c login w _ (by intro k v h; cases h) hcache, hf,
      ⟨[], by simp [World.log]⟩, fun h => lastSet_isSome_append _ _ _ h⟩
  | exchange install =>
    obtain ⟨tr, hn⟩ := hnew (Atoi a.cfg.AppID).1 install.GetID a.cfg.PrivateKey
    simp only [App.step, hn, World.alloc]
    refine ⟨?_, ?_, ⟨_, rfl⟩, fun h => lastSet_isSome_append _ _ _ h⟩
    · exact CacheOk_heap lib a c login _ _
        (CacheOk_log lib a c login w _ (by intro k v h; cases h) hcache)
    · refine ⟨install, tr, hok, hn, ?_⟩
      simp [World.log]
  | store inst =>
    simp only [App.step, App.toCache, hc]
    have hls : lastSet (cacheKey login)
        (w.trace ++ [.cacheSet (cacheKey login) (.installation (some inst))])
        = some (.installation (some inst)) := by
      rw [lastSet_append]; simp
    refine ⟨⟨?_, ?_⟩, ⟨inst, rfl, hok, ?_⟩, ⟨[], by simp [World.log]⟩, ?_⟩
    · simp only [World.log, hls, hlaw.1]; rfl
    · intro v hv
      simp only [World.log, hls, Option.some.injEq] at hv
      exact ⟨inst, hv.symm, hok⟩
    · simp only [World.log, hls]; rfl
    · intro _
      simp only [World.log, hls]; rfl
  | done r =>
    exact ⟨hcache, hok, ⟨[], by simp [App.step]⟩, fun h => h⟩
  | panicked err => exact absurd hok (by simp [Call.Ok])

theorem interleave_inv {σ : Type} (lib : GithubLib) (a : App σ) (c : Cache σ)
    (login : String) (hc : a.cache = some c) (hlaw : c.Lawful)
    (hfind : ∀ cl l, ∃ install, lib.FindUserInstallation cl l = .ok install)
    (hnew : ∀ x y z, ∃ tr, lib.New x y z = .ok tr) (sched : List Nat) :
    ∀ (ts : List Call) (w : World σ), CacheOk lib a c login w →
      (∀ t ∈ ts, t.Ok lib a login w) →
      CacheOk lib a c login (a.interleave lib login sched (ts, w)).2 ∧
      (∀ t ∈ (a.interleave lib login sched (ts, w)).1,
        t.Ok lib a login (a.interleave lib login sched (ts, w)).2) ∧
      (a.interleave lib login sched (ts, w)).1.length = ts.length := by
  induction sched with
  | nil =>
    intro ts w hcache hts
    exact ⟨hcache, hts, rfl⟩
  | cons i rest ih =>
    intro ts w hcache hts
    cases hi : ts[i]? with
    | none =>
      simp only [App.interleave, hi]
      exact ih ts w hcache hts
    | some t =>
      simp only [App.interleave, hi]
      obtain ⟨h1, h2, ⟨more, h3⟩, h4⟩ :=
        step_preserves lib a c login hc hlaw hfind hnew t w hcache
          (hts t (List.getElem?_mem hi))
      have hts1 : ∀ u ∈ ts.set i (a.step lib login t w).1,
          u.Ok lib a login (a.step lib login t w).2 := by
        intro u hu
        rcases List.mem_or_eq_of_mem_set hu with hmem | heq
        · exact Call_Ok_mono lib a login w _ u more h3 h4 (hts u hmem)
        · rw [heq]; exact h2
      have := ih (ts.set i (a.step lib login t w).1) (a.step lib login t w).2 h1 hts1
      rw [List.length_set] at this
      exact this

theorem step_rank {σ : Type} (lib : GithubLib) (a : App σ) (login : String) (t : Call)
    (w : World σ) : (a.step lib login t w).1.rank ≤ t.rank - 1 := by
  cases t with
  | start =>
    simp only [App.step]
    split <;> simp [Call.rank]
  | lookup =>
    simp only [App.step]
    split <;> simp [Call.rank]
  | exchange install =>
    simp only [App.step]
    split <;> simp [Call.rank, World.alloc]
  | store inst => simp [App.step, Call.rank]
  | done r => simp [App.step, Call.rank]
  | panicked err => simp [App.step, Call.rank]

theorem interleave_rank {σ : Type} (lib : GithubLib) (a : App σ) (login : String)
    (sched : List Nat) :
    ∀ (ts : List Call) (w : World σ) (i : Nat) (t : Call), ts[i]? = some t →
      ∃ u, (a.interleave lib login sched (ts, w)).1[i]? = some u ∧
        u.rank ≤ t.rank - sched.count i := by
  induction sched with
  | nil =>
    intro ts w i t hi
    exact ⟨t, hi, by simp⟩
  | cons j rest ih =>
    intro ts w i t hi
    cases hj : ts[j]? with
    | none =>
      have hne : j ≠ i := by
        intro h; rw [h, hi] at hj; cases hj
      simp only [App.interleave, hj]
      obtain ⟨u, hu, hr⟩ := ih ts w i t hi
      refine ⟨u, hu, ?_⟩
      rw [List.count_cons]
      simp only [beq_iff_eq, hne, if_false]
      exact hr
    | some tj =>
      simp only [App.interleave, hj]
      by_cases hji : j = i
      · subst hji
        have htj : tj = t := by rw [hi] at hj; exact (Option.some.inj hj).symm
        subst htj
        have hlt : j < ts.length := by
          obtain ⟨h, _⟩ := List.getElem?_eq_some.mp hi
          exact h
        obtain ⟨u, hu, hr⟩ := ih (ts.set j (a.step lib login tj w).1)
          (a.step lib login tj w).2 j (a.step lib login tj w).1
          (List.getElem?_set_self hlt)
        refine ⟨u, hu, ?_⟩
        have hs := step_rank lib a login tj w
        rw [List.count_cons]
        simp only [beq_self_eq_true, if_true]
        omega
      · obtain ⟨u, hu, hr⟩ := ih (ts.set j (a.step lib login tj w).1)
          (a.step lib login tj w).2 i t (by rw [List.getElem?_set_ne hji]; exact hi)
        refine ⟨u, hu, ?_⟩
        rw [List.count_cons]
        simp only [beq_iff_eq, hji, if_false]
        exact hr

theorem interleave_alone {σ : Type} (lib : GithubLib) (a : App σ) (login : String)
    (w : World σ) :
    a.interleave lib login [0, 0, 0, 0] ([.start], w) =
      match a.Installation lib w login with
      | .returned (r, w1) => ([.done r], w1)
      | .panicked err => ([.panicked err], w) := by
  simp only [App.interleave, List.getElem?_cons_zero, List.set_cons_zero, App.step,
    App.Installation]
  cases hfc : a.fromCache w login with
  | panicked err => rfl
  | returned pw =>
    obtain ⟨p, w1⟩ := pw
    cases p with
    | some inst => rfl
    | none =>
      simp only
      cases hf : lib.FindUserInstallation a.Client login with
      | error err => rfl
      | ok install =>
        simp only
        cases hn : lib.New (Atoi a.cfg.AppID).1 install.GetID a.cfg.PrivateKey with
        | error err => rfl
        | ok tr => rfl

/-- C9: for every N ≥ 1 and every login, N calls of `App.Installation` for that login
running at once (any interleaving of their steps) against one App with a cache that
returns what was last set, holds nothing for the login at first, and libraries that do not
fail: under every schedule that gives each call its four steps, every call returns; and
whenever all calls have returned, each returned a nil error and a pointer to an
`Installation` with every field set, and the cache holds under "installation/"+login
exactly the `Installation` passed to the `Set` that ran last. -/
theorem concurrent_first_calls {σ : Type} (lib : GithubLib) (a : App σ) (c : Cache σ)
    (login : String) (hc : a.cache = some c) (hlaw : c.Lawful)
    (hfind : ∀ cl l, ∃ install, lib.FindUserInstallation cl l = .ok install)
    (hnew : ∀ x y z, ∃ tr, lib.New x y z = .ok tr)
    (s0 : σ) (h0 : List Installation) (hfirst : c.Get s0 (cacheKey login) = .nil)
    (N : Nat) (hN : 0 < N) (sched : List Nat) :
    ((∀ i, i < N → 4 ≤ sched.count i) →
      ∀ t ∈ (a.concurrent lib login N s0 h0 sched).1, ∃ r, t = Call.done r) ∧
    ((∀ t ∈ (a.concurrent lib login N s0 h0 sched).1, ∃ r, t = Call.done r) →
      (a.concurrent lib login N s0 h0 sched).1.length = N ∧
      (∀ t ∈ (a.concurrent lib login N s0 h0 sched).1, ∃ p,
        t = Call.done (some p, none) ∧
        Populated lib a login (a.concurrent lib login N s0 h0 sched).2.heap p) ∧
      ∃ p, c.Get (a.concurrent lib login N s0 h0 sched).2.store (cacheKey login)
            = .installation (some p) ∧
        lastSet (cacheKey login) (a.concurrent lib login N s0 h0 sched).2.trace
            = some (.installation (some p)) ∧
        Populated lib a login (a.concurrent lib login N s0 h0 sched).2.heap p) := by
  have hcache0 : CacheOk lib a c login { store := s0, heap := h0, trace := [] } := by
    refine ⟨?_, ?_⟩
    · simp only [lastSet, List.foldl_nil, Option.getD_none]; exact hfirst
    · intro v hv
      simp [lastSet] at hv
  have hts0 : ∀ t ∈ List.replicate N Call.start,
      t.Ok lib a login { store := s0, heap := h0, trace := [] } := by
    intro t ht
    rw [(List.mem_replicate.mp ht).2]
    trivial
  obtain ⟨hcache, hts, hlen⟩ := interleave_inv lib a c login hc hlaw hfind hnew sched
    (List.replicate N Call.start) { store := s0, heap := h0, trace := [] } hcache0 hts0
  rw [List.length_replicate] at hlen
  have hdone : ∀ t ∈ (a.concurrent lib login N s0 h0 sched).1, ∀ r, t = Call.done r →
      ∃ p, t = Call.done (some p, none) ∧
        Populated lib a login (a.concurrent lib login N s0 h0 sched).2.heap p ∧
        (lastSet (cacheKey login)
          (a.concurrent lib login N s0 h0 sched).2.trace).isSome = true := by
    intro t ht r hr
    have hok := hts t ht
    rw [hr] at hok ⊢
    obtain ⟨p, hp, hpop, hs⟩ := hok
    exact ⟨p, by rw [hp], hpop, hs⟩
  constructor
  · intro hfair t ht
    obtain ⟨i, hi⟩ := List.mem_iff_getElem?.mp ht
    have hlt : i < N := by
      obtain ⟨h, _⟩ := List.getElem?_eq_some.mp hi
      have hl : (a.concurrent lib login N s0 h0 sched).1.length = N := hlen
      omega
    obtain ⟨u, hu, hr⟩ := interleave_rank lib a login sched (List.replicate N Call.start)
      { store := s0, heap := h0, trace := [] } i Call.start
      (List.getElem?_replicate_of_lt hlt)
    have hut : u = t := by
      have hi1 : (a.interleave lib login sched
        (List.replicate N Call.start, { store := s0, heap := h0, trace := [] })).1[i]?
          = some t := hi
      rw [hu] at hi1
      exact Option.some.inj hi1
    subst hut
    have h4 := hfair i hlt
    have hrank : u.rank = 0 := by
      have hstart : Call.start.rank = 4 := rfl
      omega
    have hok := hts u ht
    cases u with
    | start => simp [Call.rank] at hrank
    | lookup => simp [Call.rank] at hrank
    | exchange install => simp [Call.rank] at hrank
    | store inst => simp [Call.rank] at hrank
    | done r => exact ⟨r, rfl⟩
    | panicked err => exact absurd hok (by simp [Call.Ok])
  · intro hall
    refine ⟨hlen, ?_, ?_⟩
    · intro t ht
      obtain ⟨r, hr⟩ := hall t ht
      obtain ⟨p, hp, hpop, _⟩ := hdone t ht r hr
      exact ⟨p, hp, hpop⟩
    · have hne : (a.concurrent lib login N s0 h0 sched).1 ≠ [] := by
        intro h
        have hl : (a.concurrent lib login N s0 h0 sched).1.length = N := hlen
        rw [h] at hl
        simp only [List.length_nil] at hl
        omega
      obtain ⟨t, ht⟩ := List.exists_mem_of_ne_nil _ hne
      obtain ⟨r, hr⟩ := hall t ht
      obtain ⟨_, _, _, hs⟩ := hdone t ht r hr
      obtain ⟨v, hv⟩ := Option.isSome_iff_exists.mp hs
      obtain ⟨p, hp, hpop⟩ := hcache.2 v hv
      refine ⟨p, ?_, ?_, hpop⟩
      · have h1 := hcache.1
        have hv1 : lastSet (cacheKey login) (a.interleave lib login sched
          (List.replicate N Call.start, { store := s0, heap := h0, trace := [] })).2.trace
            = some v := hv
        rw [hv1, hp] at h1
        exact h1
      · rw [hv, hp]

theorem concurrent_first_calls_witness :
    (exampleApp.concurrent reliableGithub "alice" 2 [] [] [0, 1, 1, 0, 0, 1, 1, 0]).1.length = 2 ∧
    (∀ t ∈ (exampleApp.concurrent reliableGithub "alice" 2 [] [] [0, 1, 1, 0, 0, 1, 1, 0]).1,
      ∃ p, t = Call.done (some p, none) ∧
        Populated reliableGithub exampleApp "alice"
          (exampleApp.concurrent reliableGithub "alice" 2 [] [] [0, 1, 1, 0, 0, 1, 1, 0]).2.heap
          p) ∧
    ∃ p, mapCache.Get
          (exampleApp.concurrent reliableGithub "alice" 2 [] [] [0, 1, 1, 0, 0, 1, 1, 0]).2.store
          (cacheKey "alice") = .installation (some p) ∧
      lastSet (cacheKey "alice")
          (exampleApp.concurrent reliableGithub "alice" 2 [] [] [0, 1, 1, 0, 0, 1, 1, 0]).2.trace
        = some (.installation (some p)) ∧
      Populated reliableGithub exampleApp "alice"
        (exampleApp.concurrent reliableGithub "alice" 2 [] [] [0, 1, 1, 0, 0, 1, 1, 0]).2.heap p :=
  have h := concurrent_first_calls reliableGithub exampleApp mapCache "alice" rfl
    mapCache_lawful (fun _ _ => ⟨_, rfl⟩) (fun _ _ _ => ⟨_, rfl⟩) [] [] rfl 2 (by decide)
    [0, 1, 1, 0, 0, 1, 1, 0]
  h.2 (h.1 (by decide))

end githubapp
